import Mathlib

/-!
# Verification of the stock-comparison analytics core

A shallow embedding of `server/analyzers.py` and the dispatcher of
`server/server.py` from the `mcp_stocks` repository, together with theorems
settling the specification claims about it.

Modelling conventions:
* Python/NumPy floating-point values are modelled by `F`: exact rationals
  extended with `NaN` and signed infinities.  Rounding error and overflow of
  binary floats are out of scope; the IEEE special values are modelled
  exactly because the code's treatment of missing data (`NaN`) and division
  by zero decides several claims.
* `pandas` missing cells are `F.nan`; `dropna` removes exactly the `nan`
  entries (infinities are not "missing" for pandas and survive `dropna`).
* Square roots (`np.sqrt`, and the one inside `Series.std`) do not stay in
  `ℚ`, so the embedding is parameterised by a function `sq : ℚ → ℚ` used at
  non-negative arguments; theorems that depend on genuine square-root
  behaviour assume `SqrtFn sq`, and `ratSqrt` is a concrete function
  satisfying it (exact on squares), used by the witnesses.
* Timestamps are modelled as integers (the result of `pd.to_datetime`);
  the `datetime`/`timestamp`/positional field resolution of `_ts_to_series`
  is absorbed into that single field.
* Python `str.upper` is modelled ASCII-wise (`charUpper`), which agrees with
  it on ticker symbols.
-/

namespace McpStocks

/-- Model of a Python/NumPy double: an exact rational, a NaN, or a signed
infinity (`inf true` is `+∞`). -/
inductive F where
  | nan : F
  | inf (pos : Bool) : F
  | fin (q : ℚ) : F
deriving DecidableEq, Repr

namespace F

/-- `NaN` test (pandas treats exactly `NaN` as missing). -/
def isNan : F → Bool
  | .nan => true
  | _ => false

/-- Finiteness test. -/
def isFin : F → Bool
  | .fin _ => true
  | _ => false

/-- The rational value of a finite `F` (0 otherwise; used only under
`isFin` hypotheses). -/
def toQ : F → ℚ
  | .fin q => q
  | _ => 0

/-- IEEE negation. -/
def neg : F → F
  | .nan => .nan
  | .inf p => .inf (!p)
  | .fin q => .fin (-q)

/-- IEEE addition (`∞ + (-∞) = NaN`). -/
def add : F → F → F
  | .nan, _ => .nan
  | _, .nan => .nan
  | .inf p, .inf r => if p = r then .inf p else .nan
  | .inf p, .fin _ => .inf p
  | .fin _, .inf r => .inf r
  | .fin a, .fin b => .fin (a + b)

/-- IEEE subtraction. -/
def sub (a b : F) : F := add a (neg b)

/-- IEEE multiplication (`0 * ∞ = NaN`). -/
def mul : F → F → F
  | .nan, _ => .nan
  | _, .nan => .nan
  | .inf p, .inf r => .inf (p = r)
  | .inf p, .fin b => if b = 0 then .nan else .inf (p = (0 < b))
  | .fin a, .inf r => if a = 0 then .nan else .inf (r = (0 < a))
  | .fin a, .fin b => .fin (a * b)

/-- IEEE division.  Zero denominators are positive zeros here (the panel
holds exact rationals), so `x / 0 = ±∞` for `x ≠ 0` and `0 / 0 = NaN`. -/
def div : F → F → F
  | .nan, _ => .nan
  | _, .nan => .nan
  | .inf _, .inf _ => .nan
  | .inf p, .fin b => if b = 0 then .inf p else .inf (p = (0 < b))
  | .fin _, .inf _ => .fin 0
  | .fin a, .fin b =>
      if b = 0 then (if a = 0 then .nan else .inf (0 < a)) else .fin (a / b)

/-- Square root, with the rational part delegated to `sq` (meaningful at
non-negative arguments). -/
def sqrt (sq : ℚ → ℚ) : F → F
  | .nan => .nan
  | .inf p => if p then .inf true else .nan
  | .fin q => if q < 0 then .nan else .fin (sq q)

/-- Total order used by NumPy sorting: `-∞ < finite < +∞ < NaN`
(NaN sorts last; the lists we sort never contain NaN). -/
def leB : F → F → Bool
  | _, .nan => true
  | .nan, _ => false
  | .inf false, _ => true
  | _, .inf false => false
  | _, .inf true => true
  | .inf true, _ => false
  | .fin a, .fin b => a ≤ b

end F

/-- Specification of the square-root oracle: exact on perfect squares of
non-negatives and vanishing only at zero. -/
def SqrtFn (sq : ℚ → ℚ) : Prop :=
  (∀ q : ℚ, 0 ≤ q → (sq q = 0 ↔ q = 0)) ∧ (∀ q : ℚ, 0 ≤ q → sq (q * q) = q)

/-- A concrete square-root function on `ℚ`, exact on squares. -/
def ratSqrt (q : ℚ) : ℚ := (Nat.sqrt q.num.toNat : ℚ) / (Nat.sqrt q.den : ℚ)

/-- ASCII model of Python `str.upper` on one character. -/
def charUpper (c : Char) : Char :=
  if c.isLower then Char.ofNat (c.toNat - 32) else c

/-- ASCII model of Python `str.upper`. -/
def upperStr (s : String) : String := String.mk (s.data.map charUpper)

/-- One observation of a raw time-series payload: the resolved timestamp
(`pd.to_datetime` of the `datetime`/`timestamp`/positional field) and the
`close` field, `none` when absent or unparseable by
`pd.to_numeric(..., errors='coerce')`. -/
structure RawPoint where
  time : Int
  close : Option ℚ
deriving DecidableEq, Repr

/-- A raw TwelveData time-series payload as `analyzers.py` inspects it:
the optional `status` field, the optional `symbol` tag and the `values`
list. -/
structure TSPayload where
  status : Option String
  symbol : Option String
  values : List RawPoint
deriving DecidableEq, Repr

/-- The error test of lines 37 and 118 of `analyzers.py`:
`'status' in ts and ts.get('status') == 'error'`. -/
def TSPayload.isError (ts : TSPayload) : Bool := ts.status = some "error"

/-- A price series: time-indexed float values (`pd.Series`).  The series
name is tracked by the caller (`series_map` keys), not here. -/
abbrev PriceSeries := List (Int × F)

/-- A parsed `close` cell: missing/unparseable becomes `NaN`. -/
def cellOfClose : Option ℚ → F
  | none => .nan
  | some q => .fin q

/-- Insert into a list sorted ascending by timestamp. -/
def insertByTime (p : Int × F) : PriceSeries → PriceSeries
  | [] => [p]
  | q :: qs => if p.1 ≤ q.1 then p :: q :: qs else q :: insertByTime p qs

/-- Sort a series ascending by timestamp (`Series.sort_index`).
pandas does not collapse duplicate index entries; neither does this. -/
def sortByTime : PriceSeries → PriceSeries
  | [] => []
  | p :: ps => insertByTime p (sortByTime ps)

/-- Model of `_ts_to_series` (lines 8-24 of `analyzers.py`): an empty
`values` list yields an empty series; otherwise each observation becomes a
`(timestamp, close)` entry (unparseable closes become `NaN`) and the series
is sorted ascending by timestamp. -/
def ts_to_series (ts : TSPayload) : PriceSeries :=
  if ts.values = [] then []
  else sortByTime (ts.values.map fun p => (p.time, cellOfClose p.close))

/-- Python-dict insertion: replace the value of an existing key in place,
otherwise append the binding at the end. -/
def dictInsert {β : Type} (k : String) (v : β) : List (String × β) → List (String × β)
  | [] => [(k, v)]
  | (k', v') :: rest =>
      if k' = k then (k', v) :: rest else (k', v') :: dictInsert k v rest

/-- Python-dict construction from a binding list (later duplicate keys
overwrite the value, the key keeps its first position). -/
def dictOfList {β : Type} (l : List (String × β)) : List (String × β) :=
  l.foldl (fun d kv => dictInsert kv.1 kv.2 d) []

/-- Dict lookup. -/
def dictFind? {β : Type} (k : String) : List (String × β) → Option β
  | [] => none
  | (k', v) :: rest => if k' = k then some v else dictFind? k rest

instance exceptDecEq {ε α : Type} [DecidableEq ε] [DecidableEq α] :
    DecidableEq (Except ε α) := fun a b =>
  match a, b with
  | .error e, .error f => decidable_of_iff (e = f) (by simp)
  | .ok x, .ok y => decidable_of_iff (x = y) (by simp)
  | .error _, .ok _ => isFalse (by simp)
  | .ok _, .error _ => isFalse (by simp)

/-- Rendering of an optional string field of a payload, Python-repr style. -/
def showOptStr : Option String → String
  | none => "None"
  | some s => "'" ++ s ++ "'"

/-- Rendering of one raw observation. -/
def showRawPoint (p : RawPoint) : String :=
  "(" ++ toString p.time ++ ", " ++
    (match p.close with
     | none => "None"
     | some q => toString q) ++ ")"

/-- Structural rendering of a payload, standing in for Python's
`str(dict)` in the `RuntimeError` message (the exact repr format of the
raw dict is immaterial to the claims; what matters is that the message
embeds the payload). -/
def showTS (ts : TSPayload) : String :=
  "\x7bstatus: " ++ showOptStr ts.status ++ ", symbol: " ++ showOptStr ts.symbol ++
    ", values: [" ++ String.intercalate ", " (ts.values.map showRawPoint) ++ "]\x7d"

/-- The `RuntimeError` message of lines 38 and 119:
`f"Error fetching {sym}: {ts}"`. -/
def fetchErrorMsg (sym : String) (ts : TSPayload) : String :=
  "Error fetching " ++ sym ++ ": " ++ showTS ts

/-- The fetch loop shared by `compare_symbols` (lines 34-41) and
`hierarchical_risk_parity_portfolio` (lines 115-122): fetch each symbol in
order, abort the whole batch with a `RuntimeError` message on the first
explicit error payload, otherwise store the normalized series in an
insertion-ordered dict under the upper-cased symbol. -/
def fetchSeries (fetch : String → TSPayload) :
    List String → List (String × PriceSeries) → Except String (List (String × PriceSeries))
  | [], acc => .ok acc
  | sym :: rest, acc =>
      let ts := fetch sym
      if ts.isError then .error (fetchErrorMsg sym ts)
      else fetchSeries fetch rest (dictInsert (upperStr sym) (ts_to_series ts) acc)

/-- A time-indexed table (`pd.DataFrame`): column labels plus rows, each row
a timestamp with one cell per column (`NaN` = missing). -/
structure Panel where
  cols : List String
  rows : List (Int × List F)
deriving DecidableEq, Repr

/-- Insert into a sorted duplicate-free integer list. -/
def insertIntAsc (t : Int) : List Int → List Int
  | [] => [t]
  | u :: us =>
      if t = u then u :: us
      else if t < u then t :: u :: us
      else u :: insertIntAsc t us

/-- Sorted union of all series' time indices (`pd.concat(..., join='outer')`
aligns on the sorted union of the indices). -/
def unionTimes (sm : List (String × PriceSeries)) : List Int :=
  (sm.flatMap fun p => p.2.map Prod.fst).foldl (fun acc t => insertIntAsc t acc) []

/-- The value of a series at a timestamp; `NaN` where the series has no
observation (the missing cells produced by the outer join). -/
def seriesAt (s : PriceSeries) (t : Int) : F :=
  match s.find? (fun p => p.1 = t) with
  | some p => p.2
  | none => .nan

/-- A row is kept by `dropna(how='all')` iff some cell is not `NaN`. -/
def rowHasData (r : Int × List F) : Bool := r.2.any fun c => !c.isNan

/-- Lines 46-48 of `analyzers.py`: align the series on the outer join of
their indices, re-uppercase the column labels (a no-op: the dict keys are
already upper-cased) and drop the rows that are missing in every column. -/
def buildPrices (sm : List (String × PriceSeries)) : Panel :=
  { cols := (sm.map Prod.fst).map upperStr
    rows := ((unionTimes sm).map fun t => (t, sm.map fun p => seriesAt p.2 t)).filter rowHasData }

/-- One cell of `pct_change`: `cur / prev - 1` in float arithmetic, so a
missing neighbour gives `NaN` and a zero previous price gives `±∞` (or
`NaN` for `0/0`).  No forward-filling of gaps (spec §3). -/
def pctCell (prev cur : F) : F := F.sub (F.div cur prev) (.fin 1)

/-- Line 50: `prices.pct_change().dropna(how='all')`.  The first row of
`pct_change` is entirely `NaN` (no previous row) and is dropped by the
`dropna`, so only consecutive row pairs survive. -/
def pctChange (p : Panel) : Panel :=
  { cols := p.cols
    rows := ((p.rows.zip p.rows.tail).map fun pr =>
        (pr.2.1, List.zipWith pctCell pr.1.2 pr.2.2)).filter rowHasData }

/-- The cells of column `j` of a panel, top to bottom. -/
def colCells (p : Panel) (j : Nat) : List F :=
  p.rows.map fun r => r.2.getD j .nan

/-- `dropna()` on one column: the non-missing cells in order. -/
def dropna (cells : List F) : List F := cells.filter fun c => !c.isNan

/-- Float sum of a list (left fold, as NumPy's naive order; exact on the
rationals, with IEEE special-value propagation). -/
def fsum (l : List F) : F := l.foldl F.add (.fin 0)

/-- Float mean: `sum / n` (callers guard emptiness). -/
def fmean (l : List F) : F := F.div (fsum l) (.fin (l.length : ℚ))

/-- Population standard deviation, NumPy style with `ddof=0`: the square
root of the mean squared deviation from the mean. -/
def fstd (sq : ℚ → ℚ) (l : List F) : F :=
  let μ := fmean l
  F.sqrt sq (fmean (l.map fun x => F.mul (F.sub x μ) (F.sub x μ)))

/-- Insertion sort under the NumPy float order. -/
def insertF (x : F) : List F → List F
  | [] => [x]
  | y :: ys => if F.leB x y then x :: y :: ys else y :: insertF x ys

/-- Sort floats ascending. -/
def sortF : List F → List F
  | [] => []
  | x :: xs => insertF x (sortF xs)

/-- `np.percentile(r, 5)` with the default linear interpolation: for the
sorted sample `s` of size `n`, the value at virtual index
`0.05 * (n - 1)`, linearly interpolated between the neighbouring order
statistics. -/
def percentile5 (r : List F) : F :=
  let s := sortF r
  let pos : ℚ := 5 / 100 * ((s.length : ℚ) - 1)
  let i : Nat := (⌊pos⌋).toNat
  let γ : ℚ := pos - (⌊pos⌋ : ℚ)
  let a := s.getD i .nan
  let b := s.getD (i + 1) a
  F.add a (F.mul (F.sub b a) (.fin γ))

/-- Arithmetic mean of a rational sample (0 on the empty sample, matching
`ℚ` division by zero). -/
def meanQ (l : List ℚ) : ℚ := l.sum / (l.length : ℚ)

/-- Sum of squared deviations from the mean. -/
def sqDevSum (l : List ℚ) : ℚ :=
  (l.map fun x => (x - meanQ l) * (x - meanQ l)).sum

/-- Population variance (`ddof=0`). -/
def pvarQ (l : List ℚ) : ℚ := sqDevSum l / (l.length : ℚ)

/-- Python float truthiness: `0.0` is falsy; every other float, including
`NaN` and the infinities, is truthy. -/
def truthyF : F → Bool
  | .fin q => q ≠ 0
  | _ => true

/-- Line 71's interval test: `interval in (None, '1day', '1D', '1d')`. -/
def isDaily : Option String → Bool
  | none => true
  | some s => s = "1day" || s = "1D" || s = "1d"

/-- Per-symbol metrics record; `none` is Python `None` (JSON `null`),
`some v` a float value. -/
structure SymbolMetrics where
  latest : Option F
  cumulative_return : Option F
  volatility : Option F
  sharpe : Option F
  var_95 : Option F
deriving DecidableEq, Repr

/-- Lines 53-83 of `analyzers.py` for one column: `pcells` are the price
cells, `rcells` the returns cells of that column. -/
def colMetrics (sq : ℚ → ℚ) (interval : Option String) (pcells rcells : List F) :
    SymbolMetrics :=
  let colPrices := dropna pcells
  if colPrices = [] then ⟨none, none, none, none, none⟩
  else
    let latest := colPrices.getLastD .nan
    let first := colPrices.headD .nan
    let cum : Option F :=
      if first ≠ .fin 0 then some (F.sub (F.div latest first) (.fin 1)) else none
    let r := dropna rcells
    let mean := if r ≠ [] then fmean r else .fin 0
    let std := if r ≠ [] then fstd sq r else .fin 0
    let volatility :=
      if truthyF std && isDaily interval then F.mul std (F.sqrt sq (.fin 252)) else std
    let sharpe : Option F :=
      if truthyF std && std ≠ .fin 0 then some (F.div mean std) else none
    let var95 : Option F := if r ≠ [] then some (percentile5 r) else none
    ⟨some latest, cum, some volatility, sharpe, var95⟩

/-- The Pearson correlation of two equal-length rational samples:
`Σ(x-x̄)(y-ȳ) / sqrt(Σ(x-x̄)² · Σ(y-ȳ)²)`, `NaN` when either factor has
zero variance. -/
def pearsonQ (sq : ℚ → ℚ) (xq yq : List ℚ) : F :=
  let sxy := ((xq.zip yq).map fun p => (p.1 - meanQ xq) * (p.2 - meanQ yq)).sum
  if sqDevSum xq * sqDevSum yq = 0 then .nan
  else .fin (sxy / sq (sqDevSum xq * sqDevSum yq))

/-- The pairwise-complete observations of two columns: the row pairs where
neither cell is missing. -/
def pairObs (xs ys : List F) : List (F × F) :=
  (xs.zip ys).filter fun p => !p.1.isNan && !p.2.isNan

/-- Pairwise-complete Pearson correlation of two float columns
(`DataFrame.corr`, `min_periods=1`): keep the rows where neither cell is
missing; undefined results (no pairs, an infinite value, or a zero-variance
factor) are `NaN`. -/
def corrRaw (sq : ℚ → ℚ) (xs ys : List F) : F :=
  if pairObs xs ys = [] then .nan
  else if (pairObs xs ys).any (fun p => !p.1.isFin || !p.2.isFin) then .nan
  else pearsonQ sq ((pairObs xs ys).map fun p => p.1.toQ)
    ((pairObs xs ys).map fun p => p.2.toQ)

/-- Round-half-even to an integer (`np.round`). -/
def roundHalfEven (x : ℚ) : ℤ :=
  if x - (⌊x⌋ : ℚ) = 1 / 2 then (if ⌊x⌋ % 2 = 0 then ⌊x⌋ else ⌊x⌋ + 1)
  else round x

/-- Rounding to four decimal places (`DataFrame.round(4)`). -/
def round4 (q : ℚ) : ℚ := ((roundHalfEven (q * 10000) : ℤ) : ℚ) / 10000

/-- One entry of the returned correlation matrix: the raw pairwise
correlation, with `NaN` replaced by `0.0` (`fillna(0.0)`) and then rounded
to four decimals. -/
def corrEntry (sq : ℚ → ℚ) (xs ys : List F) : ℚ :=
  round4 (match corrRaw sq xs ys with
          | .fin q => q
          | _ => 0)

/-- Lines 85-88: `returns.corr().fillna(0.0).round(4).to_dict()`, as a
nested symbol→symbol→value mapping over the returns-panel columns. -/
def corrMatrix (sq : ℚ → ℚ) (returns : Panel) : List (String × List (String × ℚ)) :=
  returns.cols.enum.map fun a =>
    (a.2, returns.cols.enum.map fun b =>
      (b.2, corrEntry sq (colCells returns a.1) (colCells returns b.1)))

/-- The value returned by `compare_symbols`. -/
structure CompareResult where
  metrics : List (String × SymbolMetrics)
  correlation : List (String × List (String × ℚ))
deriving DecidableEq, Repr

/-- Model of `compare_symbols` (lines 27-93).  `fetch` stands for
`data_fetcher.get_historical` at this request's `interval`/`outputsize`.
Line 43-44 returns a bare `{}` when no symbols were given; that is modelled
as the empty result.  The column labels are duplicate-free (dict keys), so
pandas label indexing `prices[col]` coincides with positional indexing. -/
def compareSymbols (fetch : String → TSPayload) (sq : ℚ → ℚ)
    (symbols : List String) (interval : Option String) :
    Except String CompareResult :=
  match fetchSeries fetch symbols [] with
  | .error e => .error e
  | .ok sm =>
      if sm = [] then .ok ⟨[], []⟩
      else
        let prices := buildPrices sm
        let returns := pctChange prices
        .ok { metrics := prices.cols.enum.map fun p =>
                (p.2, colMetrics sq interval (colCells prices p.1) (colCells returns p.1))
              correlation := corrMatrix sq returns }

/-- Modelled from the spec: the recursive-bisection weight allocation of
§4.5 step 4.  The repository delegates it to the external `pypfopt`
`HRPOpt.optimize`, which is not part of this repository, so the cluster
variance of a contiguous half (`cvar`, the inverse-variance-weighted
sub-portfolio variance in `pypfopt`) is abstracted as a parameter.
Starting from the full ordered asset list with weight `w = 1`, each cluster
splits in half and the weight splits by the factor
`1 - vL / (vL + vR)` for the left half. -/
def recursiveBisect (cvar : List String → ℚ) : List String → ℚ → List (String × ℚ)
  | [], _ => []
  | [a], w => [(a, w)]
  | a :: b :: rest, w =>
      let items := a :: b :: rest
      let k := items.length / 2
      let vL := cvar (items.take k)
      let vR := cvar (items.drop k)
      let al := 1 - vL / (vL + vR)
      recursiveBisect cvar (items.take k) (w * al) ++
        recursiveBisect cvar (items.drop k) (w * (1 - al))
termination_by l _ => l.length
decreasing_by
  · simp [List.length_take]; omega
  · simp [List.length_drop]; omega

/-- Modelled from the spec: `HRPOpt(returns=returns).optimize()` (external
`pypfopt`, not part of this repository).  Per spec §4.5 it derives a
quasi-diagonal leaf ordering of the panel columns (abstracted as `order`, a
permutation) and runs recursive bisection from weight `1.0`. -/
def hrpOptimize (cvar : List String → ℚ) (order : List String → List String)
    (returns : Panel) : List (String × ℚ) :=
  recursiveBisect cvar (order returns.cols) 1

/-- Model of `hierarchical_risk_parity_portfolio` (lines 96-145).  `fetch`
absorbs `interval`/`outputsize` as in `compareSymbols`; `cvar` and `order`
are the spec-modelled internals of the external optimizer.  Note the
equal-weight fallback (lines 133-134) builds a Python dict comprehension
over the *raw* symbol list: duplicate symbols collapse to one key, each
mapped to `1.0 / len(symbols)`. -/
def hierarchical_risk_parity_portfolio (fetch : String → TSPayload)
    (cvar : List String → ℚ) (order : List String → List String)
    (symbols : List String) : Except String (List (String × ℚ)) :=
  match fetchSeries fetch symbols [] with
  | .error e => .error e
  | .ok sm =>
      if sm = [] then .ok []
      else
        let prices := buildPrices sm
        let returns := pctChange prices
        if returns.rows = [] ∨ returns.cols.length < 2 then
          .ok (dictOfList (symbols.map fun sym => (sym, 1 / (symbols.length : ℚ))))
        else
          .ok (hrpOptimize cvar order returns)

/-- JSON-like value, the parse of the text payload the dispatcher emits. -/
inductive JVal where
  | null : JVal
  | str (s : String) : JVal
  | num (v : F) : JVal
  | arr (l : List JVal) : JVal
  | obj (l : List (String × JVal)) : JVal

/-- Serialize an optional float metric. -/
def jOfOpt : Option F → JVal
  | none => .null
  | some v => .num v

/-- Serialize one symbol's metrics. -/
def jOfMetrics (m : SymbolMetrics) : JVal :=
  .obj [("latest", jOfOpt m.latest),
        ("cumulative_return", jOfOpt m.cumulative_return),
        ("volatility", jOfOpt m.volatility),
        ("sharpe", jOfOpt m.sharpe),
        ("var_95", jOfOpt m.var_95)]

/-- Serialize a `compare_symbols` result. -/
def jOfCompare (r : CompareResult) : JVal :=
  .obj [("metrics", .obj (r.metrics.map fun p => (p.1, jOfMetrics p.2))),
        ("correlation", .obj (r.correlation.map fun p =>
          (p.1, .obj (p.2.map fun q => (q.1, .num (.fin q.2))))))]

/-- Serialize an HRP weight dict. -/
def jOfWeights (d : List (String × ℚ)) : JVal :=
  .obj (d.map fun p => (p.1, .num (.fin p.2)))

/-- The structured error payload `{"error": <msg>}`. -/
def errPayload (msg : String) : JVal := .obj [("error", .str msg)]

/-- ASCII model of Python `str.strip`: drop leading and trailing
whitespace characters. -/
def stripStr (s : String) : String :=
  String.mk (((s.data.dropWhile Char.isWhitespace).reverse.dropWhile
    Char.isWhitespace).reverse)

/-- The symbol pre-processing of the dispatcher:
`[s.strip().upper() for s in symbols if s.strip()]`. -/
def processSymbols (symbols : List String) : List String :=
  (symbols.filter fun s => stripStr s ≠ "").map fun s => upperStr (stripStr s)

/-- The tool arguments the claims exercise.  `outputsize` is absorbed into
the `fetch` oracle (its integer-validation branch is not claim-relevant). -/
structure ToolArgs where
  symbols : List String
  interval : Option String
deriving DecidableEq, Repr

/-- Model of `handle_call_tool` (lines 109-245 of `server.py`): dispatch on
the tool name, validate the symbol list, call the analyzer and wrap any
analyzer failure in an `Analysis failed:` error payload; unknown tool names
get the `Unknown tool:` payload. -/
def handle_call_tool (fetch : String → TSPayload) (sq : ℚ → ℚ)
    (cvar : List String → ℚ) (order : List String → List String)
    (name : String) (args : ToolArgs) : List JVal :=
  if name = "compare_stocks" then
    if args.symbols = [] then
      [errPayload "missing symbols parameter, provide list like ['AAPL', 'MSFT']"]
    else
      let syms := processSymbols args.symbols
      if syms = [] then [errPayload "no valid symbols provided"]
      else
        match compareSymbols fetch sq syms args.interval with
        | .ok res => [jOfCompare res]
        | .error e => [errPayload ("Analysis failed: " ++ e)]
  else if name = "hierarchical_risk_parity_portfolio" then
    if args.symbols = [] then
      [errPayload "missing symbols parameter, provide list like ['AAPL', 'MSFT']"]
    else
      let syms := processSymbols args.symbols
      if syms = [] then [errPayload "no valid symbols provided"]
      else
        match hierarchical_risk_parity_portfolio fetch cvar order syms with
        | .ok d => [jOfWeights d]
        | .error e => [errPayload ("Analysis failed: " ++ e)]
  else if name = "health_check" then
    [JVal.obj [("status", .str "ok")]]
  else
    [errPayload ("Unknown tool: " ++ name)]

/-- Entry lookup in a nested correlation mapping. -/
def corrLookup (m : List (String × List (String × ℚ))) (a b : String) : Option ℚ :=
  match dictFind? a m with
  | some row => dictFind? b row
  | none => none

/-- The mean the metrics engine computes at line 68 for a column whose
non-missing returns are all finite: `0.0` for an empty return series, the
arithmetic mean otherwise. -/
def meanRQ (rcells : List F) : ℚ :=
  if dropna rcells = [] then 0 else meanQ ((dropna rcells).map F.toQ)

/-- The population standard deviation the metrics engine computes at line
69 for a column whose non-missing returns are all finite: `0.0` for an
empty return series, else the square root (via the oracle `sq`) of the
population variance. -/
def stdQ (sq : ℚ → ℚ) (rcells : List F) : ℚ :=
  if dropna rcells = [] then 0 else sq (pvarQ ((dropna rcells).map F.toQ))

/-! ## Basic lemmas about the string model -/

theorem toNat_charOfNat {n : Nat} (h : n.isValidChar) : (Char.ofNat n).toNat = n := by
  simp only [Char.ofNat, dif_pos h, Char.ofNatAux, Char.toNat, UInt32.toNat]
  simp

theorem isLower_iff (c : Char) : c.isLower = true ↔ 97 ≤ c.toNat ∧ c.toNat ≤ 122 := by
  simp only [Char.isLower, Bool.and_eq_true, ge_iff_le, decide_eq_true_eq]
  exact Iff.rfl

theorem charUpper_idem (c : Char) : charUpper (charUpper c) = charUpper c := by
  by_cases h : c.isLower
  · have hval := (isLower_iff c).mp h
    have hvalid : (c.toNat - 32).isValidChar := by
      unfold Nat.isValidChar
      omega
    have hnl : (charUpper c).isLower = false := by
      rw [Bool.eq_false_iff]
      intro hl
      have h2 := (isLower_iff _).mp hl
      have hup : (charUpper c).toNat = c.toNat - 32 := by
        simp [charUpper, h, toNat_charOfNat hvalid]
      omega
    calc charUpper (charUpper c)
        = if (charUpper c).isLower then Char.ofNat ((charUpper c).toNat - 32)
          else charUpper c := rfl
      _ = charUpper c := by rw [hnl]; simp
  · simp [charUpper, h]

theorem upperStr_idem (s : String) : upperStr (upperStr s) = upperStr s := by
  simp only [upperStr]
  cases s with
  | mk data =>
      congr 1
      rw [List.map_map]
      exact List.map_congr_left fun c _ => charUpper_idem c

/-- `ratSqrt` satisfies the square-root-oracle specification. -/
theorem ratSqrt_spec : SqrtFn ratSqrt := by
  constructor
  · intro q hq
    unfold ratSqrt
    have hden : (0 : ℚ) < (Nat.sqrt q.den : ℚ) := by
      have h1 : 0 < Nat.sqrt q.den := Nat.sqrt_pos.mpr q.den_pos
      exact_mod_cast h1
    rw [div_eq_zero_iff]
    constructor
    · rintro (h | h)
      · have h2 : Nat.sqrt q.num.toNat = 0 := by exact_mod_cast h
        have h3 : q.num.toNat = 0 := Nat.sqrt_eq_zero.mp h2
        have h4 : q.num = 0 := by
          have h5 := Rat.num_nonneg.mpr hq
          omega
        exact Rat.num_eq_zero.mp h4
      · exact absurd h (ne_of_gt hden)
    · intro h
      subst h
      left
      norm_num
  · intro q hq
    unfold ratSqrt
    rw [Rat.mul_self_num, Rat.mul_self_den]
    have hnum : (q.num * q.num).toNat = q.num.natAbs * q.num.natAbs := by
      rw [← Int.natAbs_mul_self]
      exact Int.toNat_natCast _
    rw [hnum, Nat.sqrt_eq, Nat.sqrt_eq]
    rw [Int.cast_natAbs, abs_of_nonneg (Rat.num_nonneg.mpr hq)]
    exact Rat.num_div_den q

/-! ## Lemmas about the Python-dict model -/

theorem mem_keys_dictInsert {β : Type} (k k' : String) (v : β) (d : List (String × β)) :
    k' ∈ (dictInsert k v d).map Prod.fst ↔ k' = k ∨ k' ∈ d.map Prod.fst := by
  induction d with
  | nil => simp [dictInsert]
  | cons p rest ih =>
      obtain ⟨a, b⟩ := p
      by_cases h : a = k
      · subst h
        simp [dictInsert]
      · simp only [dictInsert, if_neg h, List.map_cons, List.mem_cons, ih]
        tauto

theorem keys_dictInsert_nodup {β : Type} (k : String) (v : β) (d : List (String × β))
    (h : (d.map Prod.fst).Nodup) : ((dictInsert k v d).map Prod.fst).Nodup := by
  induction d with
  | nil => simp [dictInsert]
  | cons p rest ih =>
      obtain ⟨a, b⟩ := p
      by_cases hk : a = k
      · subst hk
        simpa [dictInsert] using h
      · simp only [dictInsert, if_neg hk, List.map_cons, List.nodup_cons] at h ⊢
        refine ⟨fun hmem => ?_, ih h.2⟩
        rcases (mem_keys_dictInsert k a v rest).mp hmem with h1 | h1
        · exact hk h1
        · exact h.1 h1

theorem dictInsert_of_not_mem {β : Type} {k : String} (v : β) {d : List (String × β)}
    (h : k ∉ d.map Prod.fst) : dictInsert k v d = d ++ [(k, v)] := by
  induction d with
  | nil => simp [dictInsert]
  | cons p rest ih =>
      obtain ⟨a, b⟩ := p
      simp only [List.map_cons, List.mem_cons, not_or] at h
      have hne : ¬a = k := fun he => h.1 he.symm
      simp only [dictInsert, if_neg hne, List.cons_append, List.cons.injEq, true_and]
      exact ih h.2

theorem mem_dictInsert {β : Type} {p : String × β} {k : String} {v : β}
    {d : List (String × β)} (h : p ∈ dictInsert k v d) : p = (k, v) ∨ p ∈ d := by
  induction d with
  | nil => simpa [dictInsert] using h
  | cons q rest ih =>
      obtain ⟨a, b⟩ := q
      by_cases hk : a = k
      · simp only [dictInsert, if_pos hk, List.mem_cons] at h
        rcases h with h | h
        · left
          rw [h, hk]
        · right
          exact List.mem_cons_of_mem _ h
      · simp only [dictInsert, if_neg hk, List.mem_cons] at h
        rcases h with h | h
        · right
          exact h ▸ List.mem_cons_self _ _
        · rcases ih h with h1 | h1
          · exact Or.inl h1
          · exact Or.inr (List.mem_cons_of_mem _ h1)

theorem dictFind?_insert_self {β : Type} (k : String) (v : β) (d : List (String × β)) :
    dictFind? k (dictInsert k v d) = some v := by
  induction d with
  | nil => simp [dictInsert, dictFind?]
  | cons p rest ih =>
      obtain ⟨a, b⟩ := p
      by_cases hk : a = k
      · simp [dictInsert, dictFind?, hk]
      · simp [dictInsert, dictFind?, hk, ih]

theorem dictFind?_insert_other {β : Type} {k k' : String} (v : β) (d : List (String × β))
    (h : k' ≠ k) : dictFind? k' (dictInsert k v d) = dictFind? k' d := by
  induction d with
  | nil =>
      have : ¬k = k' := fun he => h he.symm
      simp [dictInsert, dictFind?, this]
  | cons p rest ih =>
      obtain ⟨a, b⟩ := p
      by_cases hk : a = k
      · have h1 : ¬a = k' := fun he => h (hk ▸ he).symm
        have h2 : ¬k = k' := fun he => h he.symm
        simp [dictInsert, dictFind?, hk, h1, h2]
      · by_cases hk' : a = k'
        · simp [dictInsert, dictFind?, hk, hk', h]
        · simp [dictInsert, dictFind?, hk, hk', ih]

theorem dictFind?_eq_none {β : Type} (k : String) (d : List (String × β)) :
    dictFind? k d = none ↔ k ∉ d.map Prod.fst := by
  induction d with
  | nil => simp [dictFind?]
  | cons p rest ih =>
      obtain ⟨a, b⟩ := p
      by_cases hk : a = k
      · simp [dictFind?, hk]
      · have : ¬k = a := fun he => hk he.symm
        simp [dictFind?, hk, ih, this]

theorem dictFind?_mem {β : Type} {k : String} {v : β} {d : List (String × β)}
    (h : dictFind? k d = some v) : (k, v) ∈ d := by
  induction d with
  | nil => simp [dictFind?] at h
  | cons p rest ih =>
      obtain ⟨a, b⟩ := p
      by_cases hk : a = k
      · simp only [dictFind?, if_pos hk] at h
        have hv : b = v := by injection h
        rw [← hk, ← hv]
        exact List.mem_cons_self _ _
      · simp only [dictFind?, if_neg hk] at h
        exact List.mem_cons_of_mem _ (ih h)

/-! ## Lemmas about the fetch loop -/

theorem fetchSeries_error (fetch : String → TSPayload) :
    ∀ (syms : List String) (acc : List (String × PriceSeries)) (bad : String),
      syms.find? (fun s => (fetch s).isError) = some bad →
      fetchSeries fetch syms acc = .error (fetchErrorMsg bad (fetch bad)) := by
  intro syms
  induction syms with
  | nil => intro acc bad hf; simp at hf
  | cons s rest ih =>
      intro acc bad hf
      by_cases h : (fetch s).isError
      · simp only [List.find?, h] at hf
        injection hf with hf
        subst hf
        simp [fetchSeries, h]
      · have h' : (fetch s).isError = false := by simpa using h
        simp only [List.find?, h'] at hf
        simp only [fetchSeries, h', Bool.false_eq_true, if_false]
        exact ih _ bad hf

theorem fetchSeries_ok (fetch : String → TSPayload) :
    ∀ (syms : List String) (acc : List (String × PriceSeries)),
      (∀ s ∈ syms, (fetch s).isError = false) →
      ∃ sm, fetchSeries fetch syms acc = .ok sm ∧
        (∀ k, k ∈ sm.map Prod.fst ↔ k ∈ acc.map Prod.fst ∨ ∃ s ∈ syms, k = upperStr s) ∧
        ((acc.map Prod.fst).Nodup → (sm.map Prod.fst).Nodup) ∧
        (∀ p ∈ sm, p ∈ acc ∨ ∃ s ∈ syms, p = (upperStr s, ts_to_series (fetch s))) := by
  intro syms
  induction syms with
  | nil =>
      intro acc _
      refine ⟨acc, rfl, fun k => ?_, fun h => h, fun p hp => Or.inl hp⟩
      simp
  | cons s rest ih =>
      intro acc hok
      have hs : (fetch s).isError = false := hok s (List.mem_cons_self _ _)
      obtain ⟨sm, h1, h2, h3, h4⟩ :=
        ih (dictInsert (upperStr s) (ts_to_series (fetch s)) acc)
          (fun x hx => hok x (List.mem_cons_of_mem _ hx))
      refine ⟨sm, ?_, fun k => ?_, fun hnd => ?_, fun p hp => ?_⟩
      · simpa [fetchSeries, hs] using h1
      · rw [h2 k, mem_keys_dictInsert]
        constructor
        · rintro ((h5 | h5) | ⟨x, hx, rfl⟩)
          · exact Or.inr ⟨s, List.mem_cons_self _ _, h5⟩
          · exact Or.inl h5
          · exact Or.inr ⟨x, List.mem_cons_of_mem _ hx, rfl⟩
        · rintro (h5 | ⟨x, hx, rfl⟩)
          · exact Or.inl (Or.inr h5)
          · rcases List.mem_cons.mp hx with rfl | hx'
            · exact Or.inl (Or.inl rfl)
            · exact Or.inr ⟨x, hx', rfl⟩
      · exact h3 (keys_dictInsert_nodup _ _ _ hnd)
      · rcases h4 p hp with h5 | ⟨x, hx, rfl⟩
        · rcases mem_dictInsert h5 with h6 | h6
          · exact Or.inr ⟨s, List.mem_cons_self _ _, h6⟩
          · exact Or.inl h6
        · exact Or.inr ⟨x, List.mem_cons_of_mem _ hx, rfl⟩

/-! ## Claim C10 -/

/-- C10: for every tool-call request whose tool name is not one of
`compare_stocks`, `hierarchical_risk_parity_portfolio` or `health_check`,
the dispatcher does not raise: it returns the structured payload
`{"error": "Unknown tool: <name>"}`. -/
theorem C10_unknown_tool (fetch : String → TSPayload) (sq : ℚ → ℚ)
    (cvar : List String → ℚ) (order : List String → List String)
    (name : String) (args : ToolArgs)
    (h : name ≠ "compare_stocks" ∧ name ≠ "hierarchical_risk_parity_portfolio" ∧
      name ≠ "health_check") :
    handle_call_tool fetch sq cvar order name args =
      [errPayload ("Unknown tool: " ++ name)] := by
  simp [handle_call_tool, h.1, h.2.1, h.2.2]

/-- Witness for C10 at the concrete tool name `bogus`. -/
theorem C10_unknown_tool_witness :
    (("bogus" : String) ≠ "compare_stocks" ∧
      ("bogus" : String) ≠ "hierarchical_risk_parity_portfolio" ∧
      ("bogus" : String) ≠ "health_check") ∧
    handle_call_tool (fun _ => ⟨none, none, []⟩) (fun q => q) (fun _ => 0) id
      "bogus" ⟨["A"], none⟩ = [errPayload ("Unknown tool: " ++ "bogus")] :=
  ⟨by decide,
    C10_unknown_tool (fun _ => ⟨none, none, []⟩) (fun q => q) (fun _ => 0) id
      "bogus" ⟨["A"], none⟩ (by decide)⟩

/-! ## Claim C6 -/

/-- C6: if the data source reports an explicit error payload for one of the
requested symbols (`bad` being the first such symbol in request order),
both `compare_stocks` and `hierarchical_risk_parity_portfolio` abort the
whole multi-symbol request, and the dispatcher surfaces a single structured
error payload whose message embeds the failing symbol and the payload
(`Analysis failed: Error fetching <sym>: <payload>`); no partial result for
the other symbols is produced. -/
theorem C6_fetch_error_aborts (fetch : String → TSPayload) (sq : ℚ → ℚ)
    (cvar : List String → ℚ) (order : List String → List String)
    (args : ToolArgs) (bad : String)
    (h1 : args.symbols ≠ [])
    (h2 : processSymbols args.symbols ≠ [])
    (hbad : (processSymbols args.symbols).find? (fun s => (fetch s).isError) = some bad) :
    handle_call_tool fetch sq cvar order "compare_stocks" args =
      [errPayload ("Analysis failed: " ++ ("Error fetching " ++ bad ++ ": " ++ showTS (fetch bad)))] ∧
    handle_call_tool fetch sq cvar order "hierarchical_risk_parity_portfolio" args =
      [errPayload ("Analysis failed: " ++ ("Error fetching " ++ bad ++ ": " ++ showTS (fetch bad)))] := by
  have herr := fetchSeries_error fetch (processSymbols args.symbols) [] bad hbad
  have hcs : compareSymbols fetch sq (processSymbols args.symbols) args.interval
      = .error (fetchErrorMsg bad (fetch bad)) := by
    simp [compareSymbols, herr]
  have hhr : hierarchical_risk_parity_portfolio fetch cvar order (processSymbols args.symbols)
      = .error (fetchErrorMsg bad (fetch bad)) := by
    simp [hierarchical_risk_parity_portfolio, herr]
  refine ⟨?_, ?_⟩
  · simp [handle_call_tool, h1, h2, hcs, fetchErrorMsg]
  · simp [handle_call_tool, h1, h2, hhr, fetchErrorMsg]

/-- Witness for C6: one good symbol and one erroring symbol. -/
theorem C6_fetch_error_aborts_witness :
    ((["GOOD", "bad"] : List String) ≠ [] ∧
      processSymbols ["GOOD", "bad"] ≠ [] ∧
      (processSymbols ["GOOD", "bad"]).find?
        (fun s => ((fun x : String => if x = "BAD" then (⟨some "error", none, []⟩ : TSPayload)
          else ⟨none, none, [⟨0, some 1⟩]⟩) s).isError) = some "BAD") ∧
    handle_call_tool
      (fun x : String => if x = "BAD" then ⟨some "error", none, []⟩
        else ⟨none, none, [⟨0, some 1⟩]⟩)
      (fun q => q) (fun _ => 0) id "compare_stocks" ⟨["GOOD", "bad"], none⟩ =
      [errPayload ("Analysis failed: " ++ ("Error fetching " ++ "BAD" ++ ": " ++
        showTS (⟨some "error", none, []⟩ : TSPayload)))] := by
  have h := C6_fetch_error_aborts
    (fun x : String => if x = "BAD" then ⟨some "error", none, []⟩
      else ⟨none, none, [⟨0, some 1⟩]⟩)
    (fun q => q) (fun _ => 0) id ⟨["GOOD", "bad"], none⟩ "BAD"
    (by decide) (by decide) (by decide)
  exact ⟨⟨by decide, by decide, by decide⟩, by simpa using h.1⟩

/-! ## Claim C8: the series normalizer -/

/-- Ordering of series entries by timestamp. -/
def timeLE (a b : Int × F) : Prop := a.1 ≤ b.1

theorem insertByTime_perm (p : Int × F) (l : PriceSeries) :
    List.Perm (insertByTime p l) (p :: l) := by
  induction l with
  | nil => exact List.Perm.refl _
  | cons q qs ih =>
      by_cases h : p.1 ≤ q.1
      · simp [insertByTime, h]
      · simp only [insertByTime, if_neg h]
        exact (List.Perm.cons q ih).trans (List.Perm.swap _ _ _)

theorem sortByTime_perm (l : PriceSeries) : List.Perm (sortByTime l) l := by
  induction l with
  | nil => exact List.Perm.refl _
  | cons p ps ih =>
      exact (insertByTime_perm p (sortByTime ps)).trans (List.Perm.cons p ih)

theorem insertByTime_sorted (p : Int × F) (l : PriceSeries)
    (h : l.Pairwise timeLE) : (insertByTime p l).Pairwise timeLE := by
  induction l with
  | nil => simp [insertByTime, timeLE]
  | cons q qs ih =>
      rcases List.pairwise_cons.mp h with ⟨hq, hqs⟩
      by_cases hle : p.1 ≤ q.1
      · rw [show insertByTime p (q :: qs) = p :: q :: qs by simp [insertByTime, hle]]
        refine List.pairwise_cons.mpr ⟨fun b hb => ?_, h⟩
        rcases List.mem_cons.mp hb with rfl | hb'
        · exact hle
        · exact le_trans hle (hq b hb')
      · rw [show insertByTime p (q :: qs) = q :: insertByTime p qs by
          simp [insertByTime, hle]]
        refine List.pairwise_cons.mpr ⟨fun b hb => ?_, ih hqs⟩
        rcases List.mem_cons.mp ((insertByTime_perm p qs).mem_iff.mp hb) with rfl | hb'
        · exact le_of_not_le hle
        · exact hq b hb'

theorem sortByTime_sorted (l : PriceSeries) : (sortByTime l).Pairwise timeLE := by
  induction l with
  | nil => simp [sortByTime]
  | cons p ps ih => exact insertByTime_sorted p (sortByTime ps) ih

/-- Counterexample to C8 as stated: a payload with two observations at the
same timestamp.  The normalized series keeps both entries, so its
timestamps are not unique (pandas `sort_index` does not collapse duplicate
index labels). -/
theorem C8_counterexample :
    ts_to_series ⟨none, none, [⟨0, some 1⟩, ⟨0, some 2⟩]⟩ =
      [(0, F.fin 1), (0, F.fin 2)] ∧
    ¬ ((ts_to_series ⟨none, none, [⟨0, some 1⟩, ⟨0, some 2⟩]⟩).map Prod.fst).Nodup := by
  constructor
  · rfl
  · decide

/-- C8 (amended): the normalized series is sorted ascending by timestamp
and is a permutation of the parsed observations — duplicate timestamps are
preserved, not collapsed; a payload with zero observations yields the empty
series; an unparseable close value becomes a `NaN` entry, not an error. -/
theorem C8_normalizer (ts : TSPayload) :
    (ts_to_series ts).Pairwise timeLE ∧
    List.Perm (ts_to_series ts) (ts.values.map fun p => (p.time, cellOfClose p.close)) ∧
    (ts.values = [] → ts_to_series ts = []) ∧
    (∀ p ∈ ts.values, p.close = none → (p.time, F.nan) ∈ ts_to_series ts) := by
  by_cases h : ts.values = []
  · refine ⟨?_, ?_, fun _ => ?_, fun p hp => ?_⟩
    · simp [ts_to_series, h]
    · simp [ts_to_series, h]
    · simp [ts_to_series, h]
    · rw [h] at hp
      simp at hp
  · have hperm : List.Perm (ts_to_series ts)
        (ts.values.map fun p => (p.time, cellOfClose p.close)) := by
      simpa [ts_to_series, h] using
        sortByTime_perm (ts.values.map fun p => (p.time, cellOfClose p.close))
    refine ⟨?_, hperm, fun he => absurd he h, fun p hp hc => ?_⟩
    · simpa [ts_to_series, h] using
        sortByTime_sorted (ts.values.map fun p => (p.time, cellOfClose p.close))
    · refine hperm.mem_iff.mpr ?_
      refine List.mem_map.mpr ⟨p, hp, ?_⟩
      rw [hc]
      rfl

/-- Witness for C8 (amended) at a concrete payload with an unparseable
close and out-of-order timestamps. -/
theorem C8_normalizer_witness :
    (ts_to_series ⟨none, some "aaa", [⟨5, some 1⟩, ⟨2, none⟩]⟩).Pairwise timeLE ∧
    ((⟨5, some 1⟩ : RawPoint) ∈ ([⟨5, some 1⟩, ⟨2, none⟩] : List RawPoint) →
      (⟨5, some 1⟩ : RawPoint).close = none →
      ((5 : Int), F.nan) ∈ ts_to_series ⟨none, some "aaa", [⟨5, some 1⟩, ⟨2, none⟩]⟩) :=
  ⟨(C8_normalizer ⟨none, some "aaa", [⟨5, some 1⟩, ⟨2, none⟩]⟩).1,
    fun h1 h2 => (C8_normalizer ⟨none, some "aaa", [⟨5, some 1⟩, ⟨2, none⟩]⟩).2.2.2 _ h1 h2⟩

/-! ## Lemmas about `dictOfList` -/

theorem foldl_dictInsert_mem {β : Type} :
    ∀ (l acc : List (String × β)) (p : String × β),
      p ∈ List.foldl (fun d kv => dictInsert kv.1 kv.2 d) acc l → p ∈ acc ∨ p ∈ l := by
  intro l
  induction l with
  | nil => intro acc p hp; exact Or.inl hp
  | cons kv rest ih =>
      intro acc p hp
      rcases ih (dictInsert kv.1 kv.2 acc) p hp with h | h
      · rcases mem_dictInsert h with h1 | h1
        · right
          rw [h1]
          exact List.mem_cons_self _ _
        · exact Or.inl h1
      · exact Or.inr (List.mem_cons_of_mem _ h)

theorem dictOfList_mem {β : Type} (l : List (String × β)) (p : String × β)
    (h : p ∈ dictOfList l) : p ∈ l := by
  rcases foldl_dictInsert_mem l [] p h with h1 | h1
  · simp at h1
  · exact h1

theorem foldl_dictInsert_mem_keys {β : Type} :
    ∀ (l acc : List (String × β)) (k : String),
      k ∈ (List.foldl (fun d kv => dictInsert kv.1 kv.2 d) acc l).map Prod.fst ↔
        k ∈ acc.map Prod.fst ∨ k ∈ l.map Prod.fst := by
  intro l
  induction l with
  | nil => intro acc k; simp
  | cons kv rest ih =>
      intro acc k
      rw [List.foldl_cons, ih, mem_keys_dictInsert]
      simp only [List.map_cons, List.mem_cons]
      tauto

theorem dictOfList_mem_keys {β : Type} (l : List (String × β)) (k : String) :
    k ∈ (dictOfList l).map Prod.fst ↔ k ∈ l.map Prod.fst := by
  rw [dictOfList, foldl_dictInsert_mem_keys]
  simp

theorem dictFind?_dictOfList_const {β : Type} (l : List String) (c : β) (k : String)
    (hk : k ∈ l) : dictFind? k (dictOfList (l.map fun s => (s, c))) = some c := by
  have h1 : k ∈ (dictOfList (l.map fun s => (s, c))).map Prod.fst := by
    rw [dictOfList_mem_keys]
    simp only [List.map_map]
    simpa using hk
  cases hfind : dictFind? k (dictOfList (l.map fun s => (s, c))) with
  | none => exact absurd h1 ((dictFind?_eq_none _ _).mp hfind)
  | some v =>
      have h2 := dictOfList_mem _ _ (dictFind?_mem hfind)
      rcases List.mem_map.mp h2 with ⟨s, _, hs⟩
      have : v = c := by injection hs.symm
      rw [this]

theorem foldl_dictInsert_nodup {β : Type} :
    ∀ (l acc : List (String × β)), ((acc ++ l).map Prod.fst).Nodup →
      List.foldl (fun d kv => dictInsert kv.1 kv.2 d) acc l = acc ++ l := by
  intro l
  induction l with
  | nil => intro acc _; simp
  | cons kv rest ih =>
      intro acc hnd
      have hnotin : kv.1 ∉ acc.map Prod.fst := by
        intro hmem
        rw [List.map_append, List.nodup_append] at hnd
        exact hnd.2.2 hmem (by simp)
      rw [List.foldl_cons, dictInsert_of_not_mem kv.2 hnotin,
        ih (acc ++ [kv]) (by simpa using hnd)]
      simp

theorem dictOfList_nodup_eq {β : Type} (l : List (String × β))
    (h : (l.map Prod.fst).Nodup) : dictOfList l = l := by
  have := foldl_dictInsert_nodup l [] (by simpa using h)
  simpa [dictOfList] using this

/-! ## Lemmas about the recursive bisection -/

theorem recursiveBisect_sum_aux (cvar : List String → ℚ) :
    ∀ (n : ℕ) (items : List String) (w : ℚ), items.length ≤ n → items ≠ [] →
      ((recursiveBisect cvar items w).map Prod.snd).sum = w := by
  intro n
  induction n with
  | zero =>
      intro items w hlen hne
      cases items with
      | nil => exact absurd rfl hne
      | cons a l => simp at hlen
  | succ n ih =>
      intro items w hlen hne
      match items with
      | [] => exact absurd rfl hne
      | [a] => simp [recursiveBisect]
      | a :: b :: rest =>
          have hlen2 : (a :: b :: rest).length = rest.length + 2 := by simp
          have hk1 : 1 ≤ (a :: b :: rest).length / 2 := by omega
          have hk2 : (a :: b :: rest).length / 2 < (a :: b :: rest).length := by omega
          have htl : ((a :: b :: rest).take ((a :: b :: rest).length / 2)).length ≤ n := by
            rw [List.length_take]
            omega
          have hdl : ((a :: b :: rest).drop ((a :: b :: rest).length / 2)).length ≤ n := by
            rw [List.length_drop]
            omega
          have htn : (a :: b :: rest).take ((a :: b :: rest).length / 2) ≠ [] := by
            intro he
            have := congrArg List.length he
            rw [List.length_take] at this
            simp only [List.length_nil] at this
            omega
          have hdn : (a :: b :: rest).drop ((a :: b :: rest).length / 2) ≠ [] := by
            intro he
            have := congrArg List.length he
            rw [List.length_drop] at this
            simp only [List.length_nil] at this
            omega
          rw [recursiveBisect, List.map_append, List.sum_append,
            ih _ _ htl htn, ih _ _ hdl hdn]
          ring

theorem recursiveBisect_sum (cvar : List String → ℚ) (items : List String) (w : ℚ)
    (hne : items ≠ []) :
    ((recursiveBisect cvar items w).map Prod.snd).sum = w :=
  recursiveBisect_sum_aux cvar items.length items w le_rfl hne

theorem recursiveBisect_nonneg_aux (cvar : List String → ℚ)
    (hv : ∀ l, 0 ≤ cvar l) :
    ∀ (n : ℕ) (items : List String) (w : ℚ), items.length ≤ n → 0 ≤ w →
      ∀ p ∈ recursiveBisect cvar items w, 0 ≤ p.2 := by
  intro n
  induction n with
  | zero =>
      intro items w hlen hw p hp
      cases items with
      | nil => simp [recursiveBisect] at hp
      | cons a l => simp at hlen
  | succ n ih =>
      intro items w hlen hw p hp
      match items, hp with
      | [], hp => simp [recursiveBisect] at hp
      | [a], hp =>
          simp only [recursiveBisect, List.mem_singleton] at hp
          rw [hp]
          exact hw
      | a :: b :: rest, hp =>
          have hlen2 : (a :: b :: rest).length = rest.length + 2 := by simp
          have hk1 : 1 ≤ (a :: b :: rest).length / 2 := by omega
          have hk2 : (a :: b :: rest).length / 2 < (a :: b :: rest).length := by omega
          have htl : ((a :: b :: rest).take ((a :: b :: rest).length / 2)).length ≤ n := by
            rw [List.length_take]
            omega
          have hdl : ((a :: b :: rest).drop ((a :: b :: rest).length / 2)).length ≤ n := by
            rw [List.length_drop]
            omega
          have hsum0 : 0 ≤ cvar ((a :: b :: rest).take ((a :: b :: rest).length / 2)) +
              cvar ((a :: b :: rest).drop ((a :: b :: rest).length / 2)) :=
            add_nonneg (hv _) (hv _)
          have hbound :
              0 ≤ 1 - cvar ((a :: b :: rest).take ((a :: b :: rest).length / 2)) /
                  (cvar ((a :: b :: rest).take ((a :: b :: rest).length / 2)) +
                    cvar ((a :: b :: rest).drop ((a :: b :: rest).length / 2))) ∧
              1 - cvar ((a :: b :: rest).take ((a :: b :: rest).length / 2)) /
                  (cvar ((a :: b :: rest).take ((a :: b :: rest).length / 2)) +
                    cvar ((a :: b :: rest).drop ((a :: b :: rest).length / 2))) ≤ 1 := by
            rcases eq_or_lt_of_le hsum0 with h0 | h0
            · rw [← h0, div_zero]
              norm_num
            · constructor
              · rw [sub_nonneg, div_le_one h0]
                exact le_add_of_nonneg_right (hv _)
              · have : 0 ≤ cvar ((a :: b :: rest).take ((a :: b :: rest).length / 2)) /
                    (cvar ((a :: b :: rest).take ((a :: b :: rest).length / 2)) +
                      cvar ((a :: b :: rest).drop ((a :: b :: rest).length / 2))) :=
                  div_nonneg (hv _) (le_of_lt h0)
                linarith
          rw [recursiveBisect] at hp
          rcases List.mem_append.mp hp with h | h
          · exact ih _ _ htl (mul_nonneg hw hbound.1) p h
          · refine ih _ _ hdl (mul_nonneg hw ?_) p h
            linarith [hbound.2]

theorem recursiveBisect_nonneg (cvar : List String → ℚ) (hv : ∀ l, 0 ≤ cvar l)
    (items : List String) (w : ℚ) (hw : 0 ≤ w) :
    ∀ p ∈ recursiveBisect cvar items w, 0 ≤ p.2 :=
  recursiveBisect_nonneg_aux cvar hv items.length items w le_rfl hw

theorem dictInsert_length_ge {β : Type} (k : String) (v : β) (d : List (String × β)) :
    d.length ≤ (dictInsert k v d).length := by
  induction d with
  | nil => simp [dictInsert]
  | cons p rest ih =>
      obtain ⟨a, b⟩ := p
      by_cases h : a = k
      · simp [dictInsert, h]
      · simp only [dictInsert, if_neg h, List.length_cons]
        omega

theorem fetchSeries_ok_length (fetch : String → TSPayload) :
    ∀ (syms : List String) (acc sm : List (String × PriceSeries)),
      fetchSeries fetch syms acc = .ok sm → acc.length ≤ sm.length := by
  intro syms
  induction syms with
  | nil =>
      intro acc sm h
      simp only [fetchSeries] at h
      injection h with h
      rw [h]
  | cons s rest ih =>
      intro acc sm h
      by_cases he : (fetch s).isError
      · simp [fetchSeries, he] at h
      · simp only [fetchSeries, he, Bool.false_eq_true, if_false] at h
        exact le_trans (dictInsert_length_ge _ _ _) (ih _ _ h)

theorem fetchSeries_ok_ne_nil (fetch : String → TSPayload)
    (syms : List String) (sm : List (String × PriceSeries))
    (h : fetchSeries fetch syms [] = .ok sm) (hne : syms ≠ []) : sm ≠ [] := by
  cases syms with
  | nil => exact absurd rfl hne
  | cons s rest =>
      by_cases he : (fetch s).isError
      · simp [fetchSeries, he] at h
      · simp only [fetchSeries, he, Bool.false_eq_true, if_false] at h
        have h1 := fetchSeries_ok_length fetch rest _ _ h
        simp only [dictInsert, List.length_cons, List.length_nil] at h1
        intro hnil
        rw [hnil] at h1
        simp at h1

/-! ## Claim C2 -/

/-- C2: whenever the returns panel is empty or has fewer than two columns,
`hierarchical_risk_parity_portfolio` returns the equal-weight fallback dict
over the originally requested symbol list, mapping each requested symbol
(duplicates collapsing to a single dict key) to `1.0 / len(symbols)` where
`len` counts duplicates. -/
theorem C2_equal_weight_fallback (fetch : String → TSPayload)
    (cvar : List String → ℚ) (order : List String → List String)
    (symbols : List String) (sm : List (String × PriceSeries))
    (hok : fetchSeries fetch symbols [] = .ok sm)
    (hsm : sm ≠ [])
    (hfb : (pctChange (buildPrices sm)).rows = [] ∨
      (pctChange (buildPrices sm)).cols.length < 2) :
    hierarchical_risk_parity_portfolio fetch cvar order symbols =
      .ok (dictOfList (symbols.map fun sym => (sym, 1 / (symbols.length : ℚ)))) ∧
    ∀ sym ∈ symbols,
      dictFind? sym (dictOfList (symbols.map fun sym => (sym, 1 / (symbols.length : ℚ)))) =
        some (1 / (symbols.length : ℚ)) := by
  constructor
  · simp [hierarchical_risk_parity_portfolio, hok, hsm, hfb]
  · intro sym hsym
    exact dictFind?_dictOfList_const _ _ _ hsym

/-- Witness for C2 at the single-symbol request `["AAA"]` (the spec's own
example): the result is `{"AAA": 1.0}`. -/
theorem C2_equal_weight_fallback_witness :
    (fetchSeries (fun _ => ⟨none, none, []⟩) ["AAA"] [] =
      .ok [("AAA", ([] : PriceSeries))]) ∧
    ([("AAA", ([] : PriceSeries))] ≠ []) ∧
    ((pctChange (buildPrices [("AAA", ([] : PriceSeries))])).rows = [] ∨
      (pctChange (buildPrices [("AAA", ([] : PriceSeries))])).cols.length < 2) ∧
    (hierarchical_risk_parity_portfolio (fun _ => ⟨none, none, []⟩) (fun _ => 0) id
      ["AAA"] =
      .ok (dictOfList (["AAA"].map fun sym => (sym, 1 / ((["AAA"].length : ℕ) : ℚ))))) ∧
    dictFind? "AAA"
      (dictOfList (["AAA"].map fun sym => (sym, 1 / ((["AAA"].length : ℕ) : ℚ)))) =
      some (1 / ((["AAA"].length : ℕ) : ℚ)) := by
  have h := C2_equal_weight_fallback (fun _ => ⟨none, none, []⟩) (fun _ => 0) id
    ["AAA"] [("AAA", [])] (by with_unfolding_all decide) (by decide) (by decide)
  exact ⟨by with_unfolding_all decide, by decide, by decide, h.1,
    h.2 "AAA" (by decide)⟩

theorem sum_map_pair_const (l : List String) (c : ℚ) :
    ((l.map fun s => (s, c)).map Prod.snd).sum = l.length * c := by
  induction l with
  | nil => simp
  | cons a t ih =>
      simp only [List.map_cons, List.sum_cons, ih, List.length_cons]
      push_cast
      ring

/-! ## Claim C1 -/

/-- Counterexample to C1 as stated: with a duplicated request list
`["AAA", "AAA"]` the fallback dict comprehension collapses the key, so the
returned mapping is `{"AAA": 0.5}` and the weights sum to `1/2`, not
`1.0 ± 1e-6`. -/
theorem C1_counterexample :
    hierarchical_risk_parity_portfolio (fun _ => ⟨none, none, []⟩) (fun _ => 0) id
      ["AAA", "AAA"] = .ok [("AAA", 1 / 2)] ∧
    (([("AAA", (1 : ℚ) / 2)].map Prod.snd).sum = 1 / 2) ∧
    ¬ |(1 : ℚ) / 2 - 1| ≤ 1 / 1000000 := by
  refine ⟨by with_unfolding_all decide, by with_unfolding_all decide, ?_⟩
  have h12 : |(1 : ℚ) / 2 - 1| = 1 / 2 := by
    have he : (1 : ℚ) / 2 - 1 = -(1 / 2) := by norm_num
    rw [he, abs_neg, abs_of_nonneg (by norm_num : (0 : ℚ) ≤ 1 / 2)]
  rw [h12]
  norm_num

/-- C1 (amended): every weight returned by
`hierarchical_risk_parity_portfolio` is non-negative, and the weights sum
to exactly 1 whenever the requested symbol list is non-empty and free of
duplicates (with duplicates the fallback sums to
`#distinct / len(symbols)` instead).  The external optimizer's cluster
variance is abstracted by the non-negative `cvar` and its quasi-diagonal
ordering by the length-preserving `order` (spec §4.5). -/
theorem C1_hrp_weights (fetch : String → TSPayload) (cvar : List String → ℚ)
    (order : List String → List String) (symbols : List String)
    (d : List (String × ℚ))
    (hv : ∀ l, 0 ≤ cvar l)
    (hord : ∀ l : List String, (order l).length = l.length)
    (hok : hierarchical_risk_parity_portfolio fetch cvar order symbols = .ok d) :
    (∀ p ∈ d, 0 ≤ p.2) ∧
    (symbols ≠ [] → symbols.Nodup → (d.map Prod.snd).sum = 1) := by
  cases hfs : fetchSeries fetch symbols [] with
  | error e =>
      simp [hierarchical_risk_parity_portfolio, hfs] at hok
  | ok sm =>
      by_cases hsm : sm = []
      · have hd : d = [] := by
          simp [hierarchical_risk_parity_portfolio, hfs, hsm] at hok
          exact hok
        subst hd
        refine ⟨by simp, fun hne _ => ?_⟩
        exact absurd hsm (fetchSeries_ok_ne_nil fetch symbols sm hfs hne)
      · by_cases hfb : (pctChange (buildPrices sm)).rows = [] ∨
            (pctChange (buildPrices sm)).cols.length < 2
        · have hd : d = dictOfList (symbols.map fun sym =>
              (sym, ((symbols.length : ℚ))⁻¹)) := by
            simp [hierarchical_risk_parity_portfolio, hfs, hsm, hfb] at hok
            exact hok.symm
          subst hd
          constructor
          · intro p hp
            have h1 := dictOfList_mem _ _ hp
            rcases List.mem_map.mp h1 with ⟨sym, _, hs⟩
            rw [← hs]
            positivity
          · intro hne hnd
            have hkeys : ((symbols.map fun sym =>
                (sym, ((symbols.length : ℚ))⁻¹)).map Prod.fst).Nodup := by
              rw [List.map_map]
              have hcomp : (Prod.fst ∘ fun sym : String =>
                  (sym, ((symbols.length : ℚ))⁻¹)) = id := rfl
              rw [hcomp, List.map_id]
              exact hnd
            rw [dictOfList_nodup_eq _ hkeys, sum_map_pair_const]
            have hlen0 : symbols.length ≠ 0 := by
              intro h0
              exact hne (List.length_eq_zero.mp h0)
            have hlen : (symbols.length : ℚ) ≠ 0 := by exact_mod_cast hlen0
            field_simp
        · have hd : d = hrpOptimize cvar order (pctChange (buildPrices sm)) := by
            simp [hierarchical_risk_parity_portfolio, hfs, hsm, hfb] at hok
            exact hok.symm
          subst hd
          push_neg at hfb
          constructor
          · exact recursiveBisect_nonneg cvar hv _ 1 (by norm_num)
          · intro _ _
            refine recursiveBisect_sum cvar _ 1 ?_
            intro he
            have h1 := congrArg List.length he
            rw [hord] at h1
            simp only [List.length_nil] at h1
            omega

/-! ## Lemmas for the correlation engine (claim C4) -/

theorem zip_self {α : Type} (l : List α) : l.zip l = l.map fun x => (x, x) := by
  induction l with
  | nil => rfl
  | cons a t ih => simp [ih]

theorem pairObs_swap (xs ys : List F) :
    pairObs ys xs = (pairObs xs ys).map Prod.swap := by
  unfold pairObs
  rw [(List.zip_swap xs ys).symm, List.filter_map]
  congr 1
  apply List.filter_congr
  intro p _
  simp [Function.comp, Bool.and_comm]

theorem pairObs_self (xs : List F) :
    pairObs xs xs = (dropna xs).map fun x => (x, x) := by
  unfold pairObs dropna
  rw [zip_self, List.filter_map]
  congr 1
  apply List.filter_congr
  intro x _
  simp [Function.comp]

theorem pearsonQ_comm (sq : ℚ → ℚ) (xq yq : List ℚ) :
    pearsonQ sq yq xq = pearsonQ sq xq yq := by
  unfold pearsonQ
  have hsxy : ((yq.zip xq).map fun p => (p.1 - meanQ yq) * (p.2 - meanQ xq)).sum =
      ((xq.zip yq).map fun p => (p.1 - meanQ xq) * (p.2 - meanQ yq)).sum := by
    rw [(List.zip_swap xq yq).symm, List.map_map]
    congr 1
    apply List.map_congr_left
    intro p _
    simp only [Function.comp_apply, Prod.fst_swap, Prod.snd_swap]
    ring
  rw [hsxy, mul_comm (sqDevSum yq) (sqDevSum xq)]

theorem corrRaw_comm (sq : ℚ → ℚ) (xs ys : List F) :
    corrRaw sq ys xs = corrRaw sq xs ys := by
  unfold corrRaw
  rw [pairObs_swap xs ys]
  by_cases hemp : pairObs xs ys = []
  · simp [hemp]
  · have hemp' : (pairObs xs ys).map Prod.swap ≠ [] := by
      simpa using hemp
    rw [if_neg hemp', if_neg hemp]
    have hany : ((pairObs xs ys).map Prod.swap).any (fun p => !p.1.isFin || !p.2.isFin) =
        (pairObs xs ys).any (fun p => !p.1.isFin || !p.2.isFin) := by
      rw [List.any_map]
      rw [Bool.eq_iff_iff]
      simp only [List.any_eq_true, Function.comp_apply, Prod.fst_swap, Prod.snd_swap]
      constructor
      · rintro ⟨p, hp, h⟩
        exact ⟨p, hp, by rwa [Bool.or_comm] at h⟩
      · rintro ⟨p, hp, h⟩
        exact ⟨p, hp, by rwa [Bool.or_comm] at h⟩
    rw [hany]
    by_cases ha : (pairObs xs ys).any (fun p => !p.1.isFin || !p.2.isFin) = true
    · rw [if_pos ha, if_pos ha]
    · rw [if_neg ha, if_neg ha]
      calc pearsonQ sq (((pairObs xs ys).map Prod.swap).map fun p => p.1.toQ)
            (((pairObs xs ys).map Prod.swap).map fun p => p.2.toQ)
          = pearsonQ sq ((pairObs xs ys).map fun p => p.2.toQ)
            ((pairObs xs ys).map fun p => p.1.toQ) := by
            rw [List.map_map, List.map_map]
            rfl
        _ = pearsonQ sq ((pairObs xs ys).map fun p => p.1.toQ)
            ((pairObs xs ys).map fun p => p.2.toQ) := pearsonQ_comm sq _ _

theorem corrEntry_comm (sq : ℚ → ℚ) (xs ys : List F) :
    corrEntry sq ys xs = corrEntry sq xs ys := by
  unfold corrEntry
  rw [corrRaw_comm]

theorem sqDevSum_nonneg (l : List ℚ) : 0 ≤ sqDevSum l := by
  apply List.sum_nonneg
  intro x hx
  rcases List.mem_map.mp hx with ⟨y, _, rfl⟩
  exact mul_self_nonneg _

theorem corrRaw_self (sq : ℚ → ℚ) (hsq : SqrtFn sq) (xs : List F)
    (hfin : ∀ x ∈ dropna xs, x.isFin = true)
    (hvar : sqDevSum ((dropna xs).map F.toQ) ≠ 0) :
    corrRaw sq xs xs = .fin 1 := by
  have hne : dropna xs ≠ [] := by
    intro he
    rw [he] at hvar
    simp [sqDevSum, meanQ] at hvar
  unfold corrRaw
  rw [pairObs_self]
  have hne' : ((dropna xs).map fun x => (x, x)) ≠ [] := by
    simpa using hne
  rw [if_neg hne']
  have hnoinf : (((dropna xs).map fun x => (x, x)).any
      (fun p => !p.1.isFin || !p.2.isFin)) = false := by
    apply List.any_eq_false.mpr
    intro p hp
    rcases List.mem_map.mp hp with ⟨x, hx, rfl⟩
    simp [hfin x hx]
  rw [hnoinf]
  simp only [Bool.false_eq_true, if_false]
  have hmaps : (((dropna xs).map fun x => (x, x)).map fun p => p.1.toQ) =
      (dropna xs).map F.toQ := by
    rw [List.map_map]
    rfl
  have hmaps2 : (((dropna xs).map fun x => (x, x)).map fun p => p.2.toQ) =
      (dropna xs).map F.toQ := by
    rw [List.map_map]
    rfl
  rw [hmaps, hmaps2]
  unfold pearsonQ
  have hzip : (((dropna xs).map F.toQ).zip ((dropna xs).map F.toQ)).map
      (fun p => (p.1 - meanQ ((dropna xs).map F.toQ)) *
        (p.2 - meanQ ((dropna xs).map F.toQ))) =
      ((dropna xs).map F.toQ).map
        (fun x => (x - meanQ ((dropna xs).map F.toQ)) *
          (x - meanQ ((dropna xs).map F.toQ))) := by
    rw [zip_self, List.map_map]
    rfl
  rw [hzip]
  have hsxy : (((dropna xs).map F.toQ).map
      (fun x => (x - meanQ ((dropna xs).map F.toQ)) *
        (x - meanQ ((dropna xs).map F.toQ)))).sum =
      sqDevSum ((dropna xs).map F.toQ) := rfl
  rw [hsxy]
  rw [if_neg (mul_ne_zero hvar hvar)]
  rw [hsq.2 _ (sqDevSum_nonneg _), div_self hvar]

theorem dictFind?_enumFrom_map {β : Type} (f : ℕ → β) :
    ∀ (cols : List String) (n : ℕ) (a : String), a ∈ cols →
      dictFind? a ((cols.enumFrom n).map fun p => (p.2, f p.1)) =
        some (f (n + cols.indexOf a)) := by
  intro cols
  induction cols with
  | nil => intro n a ha; simp at ha
  | cons c rest ih =>
      intro n a ha
      by_cases hc : c = a
      · subst hc
        simp [List.enumFrom, dictFind?, List.indexOf_cons_self]
      · have ha' : a ∈ rest := by
          rcases List.mem_cons.mp ha with h | h
          · exact absurd h.symm hc
          · exact h
        simp only [List.enumFrom, List.map_cons, dictFind?, if_neg hc]
        rw [ih (n + 1) a ha', List.indexOf_cons_ne _ hc]
        have harith : n + 1 + List.indexOf a rest =
            n + (List.indexOf a rest).succ := by omega
        rw [harith]

theorem corrLookup_corrMatrix (sq : ℚ → ℚ) (P : Panel) (a b : String)
    (ha : a ∈ P.cols) (hb : b ∈ P.cols) :
    corrLookup (corrMatrix sq P) a b =
      some (corrEntry sq (colCells P (P.cols.indexOf a))
        (colCells P (P.cols.indexOf b))) := by
  unfold corrLookup corrMatrix
  have h1 := dictFind?_enumFrom_map
    (fun i => P.cols.enum.map fun q =>
      (q.2, corrEntry sq (colCells P i) (colCells P q.1)))
    P.cols 0 a ha
  rw [show P.cols.enum = P.cols.enumFrom 0 from rfl] at h1 ⊢
  rw [h1]
  simp only [Nat.zero_add]
  have h2 := dictFind?_enumFrom_map
    (fun j => corrEntry sq (colCells P (P.cols.indexOf a)) (colCells P j))
    P.cols 0 b hb
  simp only [Nat.zero_add] at h2
  exact h2

theorem corrMatrix_row (sq : ℚ → ℚ) (P : Panel) (a : String) (ha : a ∈ P.cols) :
    ∃ row, dictFind? a (corrMatrix sq P) = some row ∧
      row.map Prod.fst = P.cols := by
  unfold corrMatrix
  have h1 := dictFind?_enumFrom_map
    (fun i => P.cols.enum.map fun q =>
      (q.2, corrEntry sq (colCells P i) (colCells P q.1)))
    P.cols 0 a ha
  rw [show P.cols.enum = P.cols.enumFrom 0 from rfl] at h1 ⊢
  refine ⟨_, h1, ?_⟩
  rw [List.map_map]
  exact List.enumFrom_map_snd 0 P.cols

theorem round4_dyadic (q : ℚ) : ∃ k : ℤ, round4 q = (k : ℚ) / 10000 :=
  ⟨roundHalfEven (q * 10000), rfl⟩

theorem corrEntry_dyadic (sq : ℚ → ℚ) (xs ys : List F) :
    ∃ k : ℤ, corrEntry sq xs ys = (k : ℚ) / 10000 :=
  round4_dyadic _

theorem round4_zero : round4 0 = 0 := by
  with_unfolding_all decide

theorem round4_one : round4 1 = 1 := by
  with_unfolding_all decide

theorem corrEntry_nan {sq : ℚ → ℚ} {xs ys : List F}
    (h : corrRaw sq xs ys = .nan) : corrEntry sq xs ys = 0 := by
  unfold corrEntry
  rw [h]
  exact round4_zero

/-! ## Claim C4 -/

/-- Counterexample to C4 as stated: a symbol whose three prices are all
`100` has two valid (non-missing) return observations, both `0`, yet
`compare_symbols` reports its diagonal correlation as `0.0`, not `1.0`
(zero-variance series: `corr` yields `NaN`, replaced by `0.0` by
`fillna`). -/
theorem C4_counterexample :
    compareSymbols
      (fun _ => ⟨none, none, [⟨0, some 100⟩, ⟨1, some 100⟩, ⟨2, some 100⟩]⟩)
      ratSqrt ["A"] none =
      .ok ⟨[("A", ⟨some (F.fin 100), some (F.fin 0), some (F.fin 0), none,
        some (F.fin 0)⟩)], [("A", [("A", 0)])]⟩ ∧
    (dropna (colCells (pctChange (buildPrices [("A", ts_to_series
      (⟨none, none, [⟨0, some 100⟩, ⟨1, some 100⟩, ⟨2, some 100⟩]⟩ : TSPayload))])) 0)).length = 2 ∧
    corrLookup [("A", [("A", 0)])] "A" "A" = some 0 ∧ (0 : ℚ) ≠ 1 := by
  refine ⟨by with_unfolding_all decide, by with_unfolding_all decide,
    by with_unfolding_all decide, by norm_num⟩

/-- C4 (amended): for every returns panel, the correlation matrix is
symmetric (`entry[a][b] = entry[b][a]`), every entry is an integer multiple
of `1/10⁴` (rounded to 4 decimal places), every undefined (`NaN`) raw
correlation is replaced by `0.0`, every symbol appears as a key with a row
covering all symbols, and the diagonal entry is `1.0` for any symbol with
at least two valid return points that are all finite and of non-zero
variance (a constant — zero-variance — series instead gets `0.0`, which is
where the claim as stated fails). -/
theorem C4_corr_matrix (sq : ℚ → ℚ) (hsq : SqrtFn sq) (P : Panel) :
    (∀ a ∈ P.cols, ∀ b ∈ P.cols,
      corrLookup (corrMatrix sq P) a b = corrLookup (corrMatrix sq P) b a) ∧
    (∀ a ∈ P.cols, ∀ b ∈ P.cols, ∃ k : ℤ,
      corrLookup (corrMatrix sq P) a b = some ((k : ℚ) / 10000)) ∧
    (∀ a ∈ P.cols, ∀ b ∈ P.cols,
      corrRaw sq (colCells P (P.cols.indexOf a))
        (colCells P (P.cols.indexOf b)) = .nan →
      corrLookup (corrMatrix sq P) a b = some 0) ∧
    (∀ a ∈ P.cols,
      (∀ x ∈ dropna (colCells P (P.cols.indexOf a)), x.isFin = true) →
      2 ≤ (dropna (colCells P (P.cols.indexOf a))).length →
      sqDevSum ((dropna (colCells P (P.cols.indexOf a))).map F.toQ) ≠ 0 →
      corrLookup (corrMatrix sq P) a a = some 1) ∧
    (∀ a ∈ P.cols, ∃ row, dictFind? a (corrMatrix sq P) = some row ∧
      row.map Prod.fst = P.cols) := by
  refine ⟨?_, ?_, ?_, ?_, ?_⟩
  · intro a ha b hb
    rw [corrLookup_corrMatrix sq P a b ha hb, corrLookup_corrMatrix sq P b a hb ha,
      corrEntry_comm]
  · intro a ha b hb
    rcases corrEntry_dyadic sq (colCells P (P.cols.indexOf a))
      (colCells P (P.cols.indexOf b)) with ⟨k, hk⟩
    refine ⟨k, ?_⟩
    rw [corrLookup_corrMatrix sq P a b ha hb, hk]
  · intro a ha b hb hnan
    rw [corrLookup_corrMatrix sq P a b ha hb, corrEntry_nan hnan]
  · intro a ha hfin _ hvar
    rw [corrLookup_corrMatrix sq P a a ha ha]
    have hself := corrRaw_self sq hsq (colCells P (P.cols.indexOf a)) hfin hvar
    unfold corrEntry
    rw [hself]
    exact congrArg some round4_one
  · intro a ha
    exact corrMatrix_row sq P a ha

/-- Witness for C4 (amended) on a concrete two-column returns panel. -/
theorem C4_corr_matrix_witness :
    SqrtFn ratSqrt ∧
    (∀ a ∈ (⟨["A", "B"], [(0, [F.fin 1, F.fin 2]), (1, [F.fin 3, F.fin 1])]⟩ : Panel).cols,
      ∀ b ∈ (⟨["A", "B"], [(0, [F.fin 1, F.fin 2]), (1, [F.fin 3, F.fin 1])]⟩ : Panel).cols,
      corrLookup (corrMatrix ratSqrt ⟨["A", "B"],
        [(0, [F.fin 1, F.fin 2]), (1, [F.fin 3, F.fin 1])]⟩) a b =
      corrLookup (corrMatrix ratSqrt ⟨["A", "B"],
        [(0, [F.fin 1, F.fin 2]), (1, [F.fin 3, F.fin 1])]⟩) b a) := by
  constructor
  · exact ratSqrt_spec
  · exact (C4_corr_matrix ratSqrt ratSqrt_spec _).1

/-- Witness for C1 (amended) at the single-symbol request `["AAA"]`. -/
theorem C1_hrp_weights_witness :
    (∀ l : List String, 0 ≤ (fun _ : List String => (0 : ℚ)) l) ∧
    (hierarchical_risk_parity_portfolio (fun _ => ⟨none, none, []⟩)
      (fun _ => 0) id ["AAA"] = .ok [("AAA", 1)]) ∧
    ((∀ p ∈ ([("AAA", (1 : ℚ))] : List (String × ℚ)), 0 ≤ p.2) ∧
      ((["AAA"] : List String) ≠ [] → (["AAA"] : List String).Nodup →
        (([("AAA", (1 : ℚ))] : List (String × ℚ)).map Prod.snd).sum = 1)) :=
  ⟨fun _ => le_refl 0, by with_unfolding_all decide,
    C1_hrp_weights (fun _ => ⟨none, none, []⟩) (fun _ => 0) id ["AAA"]
      [("AAA", 1)] (fun _ => le_refl 0) (fun _ => rfl)
      (by with_unfolding_all decide)⟩

/-! ## Evaluation of the float statistics on all-finite samples -/

theorem F.add_fin (a b : ℚ) : F.add (.fin a) (.fin b) = .fin (a + b) := rfl

theorem F.mul_fin (a b : ℚ) : F.mul (.fin a) (.fin b) = .fin (a * b) := rfl

theorem F.sub_fin (a b : ℚ) : F.sub (.fin a) (.fin b) = .fin (a - b) := by
  simp [F.sub, F.add, F.neg, sub_eq_add_neg]

theorem F.div_fin (a b : ℚ) (h : b ≠ 0) :
    F.div (.fin a) (.fin b) = .fin (a / b) := by
  simp [F.div, h]

theorem F.sqrt_fin (sq : ℚ → ℚ) (v : ℚ) (h : 0 ≤ v) :
    F.sqrt sq (.fin v) = .fin (sq v) := by
  simp [F.sqrt, not_lt.mpr h]

theorem pvarQ_nonneg (l : List ℚ) : 0 ≤ pvarQ l :=
  div_nonneg (sqDevSum_nonneg l) (Nat.cast_nonneg _)

theorem foldl_add_fin (l : List F) (h : ∀ x ∈ l, x.isFin = true) :
    ∀ q : ℚ, l.foldl F.add (.fin q) = .fin (q + (l.map F.toQ).sum) := by
  induction l with
  | nil => intro q; simp
  | cons x t ih =>
      intro q
      have hx := h x (List.mem_cons_self _ _)
      cases x with
      | nan => simp [F.isFin] at hx
      | inf p => simp [F.isFin] at hx
      | fin a =>
          simp only [List.foldl_cons, F.add_fin]
          rw [ih (fun y hy => h y (List.mem_cons_of_mem _ hy)) (q + a)]
          simp only [List.map_cons, List.sum_cons, F.toQ]
          congr 1
          ring

theorem fsum_fin (l : List F) (h : ∀ x ∈ l, x.isFin = true) :
    fsum l = .fin ((l.map F.toQ).sum) := by
  have h1 := foldl_add_fin l h 0
  simpa [fsum] using h1

theorem fmean_fin (l : List F) (h : ∀ x ∈ l, x.isFin = true) (hne : l ≠ []) :
    fmean l = .fin (meanQ (l.map F.toQ)) := by
  have hlen : ((l.length : ℕ) : ℚ) ≠ 0 := by
    have h0 : l.length ≠ 0 := fun h0 => hne (List.length_eq_zero.mp h0)
    exact_mod_cast h0
  unfold fmean
  rw [fsum_fin l h, F.div_fin _ _ hlen]
  unfold meanQ
  rw [List.length_map]

theorem fstd_fin (sq : ℚ → ℚ) (l : List F) (h : ∀ x ∈ l, x.isFin = true)
    (hne : l ≠ []) :
    fstd sq l = .fin (sq (pvarQ (l.map F.toQ))) := by
  unfold fstd
  rw [fmean_fin l h hne]
  show F.sqrt sq (fmean (l.map fun x =>
      F.mul (F.sub x (.fin (meanQ (l.map F.toQ))))
        (F.sub x (.fin (meanQ (l.map F.toQ)))))) =
    F.fin (sq (pvarQ (l.map F.toQ)))
  have hmap : (l.map fun x =>
      F.mul (F.sub x (.fin (meanQ (l.map F.toQ))))
        (F.sub x (.fin (meanQ (l.map F.toQ))))) =
      ((l.map F.toQ).map fun a =>
        F.fin ((a - meanQ (l.map F.toQ)) * (a - meanQ (l.map F.toQ)))) := by
    rw [List.map_map]
    apply List.map_congr_left
    intro x hx
    have hx' := h x hx
    cases x with
    | nan => simp [F.isFin] at hx'
    | inf p => simp [F.isFin] at hx'
    | fin a =>
        simp only [Function.comp_apply, F.sub_fin, F.mul_fin, F.toQ]
  rw [hmap]
  have hfin2 : ∀ y ∈ ((l.map F.toQ).map fun a =>
      F.fin ((a - meanQ (l.map F.toQ)) * (a - meanQ (l.map F.toQ)))),
      y.isFin = true := by
    intro y hy
    rcases List.mem_map.mp hy with ⟨a, _, rfl⟩
    rfl
  have hne2 : ((l.map F.toQ).map fun a =>
      F.fin ((a - meanQ (l.map F.toQ)) * (a - meanQ (l.map F.toQ)))) ≠ [] := by
    simpa using hne
  rw [fmean_fin _ hfin2 hne2]
  have htoq : (((l.map F.toQ).map fun a =>
      F.fin ((a - meanQ (l.map F.toQ)) * (a - meanQ (l.map F.toQ)))).map F.toQ) =
      ((l.map F.toQ).map fun a =>
        (a - meanQ (l.map F.toQ)) * (a - meanQ (l.map F.toQ))) := by
    rw [List.map_map]
    rfl
  rw [htoq]
  have hpv : meanQ ((l.map F.toQ).map fun a =>
      (a - meanQ (l.map F.toQ)) * (a - meanQ (l.map F.toQ))) =
      pvarQ (l.map F.toQ) := by
    simp [meanQ, pvarQ, sqDevSum, List.length_map]
  rw [hpv]
  exact F.sqrt_fin sq _ (pvarQ_nonneg _)

/-- Evaluation of the metrics engine for a column with at least one
non-missing price and all-finite non-missing returns. -/
theorem colMetrics_fin_eval (sq : ℚ → ℚ) (interval : Option String)
    (pcells rcells : List F)
    (hp : dropna pcells ≠ [])
    (hr : ∀ x ∈ dropna rcells, x.isFin = true) :
    colMetrics sq interval pcells rcells =
      { latest := some ((dropna pcells).getLastD .nan)
        cumulative_return :=
          if (dropna pcells).headD .nan ≠ .fin 0 then
            some (F.sub (F.div ((dropna pcells).getLastD .nan)
              ((dropna pcells).headD .nan)) (.fin 1))
          else none
        volatility :=
          if stdQ sq rcells ≠ 0 ∧ isDaily interval = true then
            some (.fin (stdQ sq rcells * sq 252))
          else some (.fin (stdQ sq rcells))
        sharpe :=
          if stdQ sq rcells ≠ 0 then
            some (.fin (meanRQ rcells / stdQ sq rcells))
          else none
        var_95 :=
          if dropna rcells ≠ [] then some (percentile5 (dropna rcells))
          else none } := by
  have hstd : (if dropna rcells ≠ [] then fstd sq (dropna rcells) else .fin 0) =
      .fin (stdQ sq rcells) := by
    by_cases hre : dropna rcells = []
    · simp [hre, stdQ]
    · simp [hre, stdQ, fstd_fin sq _ hr hre]
  have hmean : (if dropna rcells ≠ [] then fmean (dropna rcells) else .fin 0) =
      .fin (meanRQ rcells) := by
    by_cases hre : dropna rcells = []
    · simp [hre, meanRQ]
    · simp [hre, meanRQ, fmean_fin _ hr hre]
  have hsqrt252 : F.sqrt sq (.fin 252) = .fin (sq 252) :=
    F.sqrt_fin sq 252 (by norm_num)
  simp only [colMetrics, hp, if_neg hp, hstd, hmean, hsqrt252]
  by_cases hs : stdQ sq rcells = 0
  · by_cases hd : isDaily interval
    · simp [truthyF, hs, hd]
    · simp [truthyF, hs, hd]
  · by_cases hd : isDaily interval
    · simp [truthyF, hs, hd, F.mul_fin, F.div_fin _ _ hs]
    · simp [truthyF, hs, hd, F.div_fin _ _ hs]

theorem headD_mem {l : List F} (h : l ≠ []) : l.headD .nan ∈ l := by
  cases l with
  | nil => exact absurd rfl h
  | cons a t => simp

theorem getLastD_mem {l : List F} (d : F) (h : l ≠ []) : l.getLastD d ∈ l := by
  induction l generalizing d with
  | nil => exact absurd rfl h
  | cons a t ih =>
      rw [List.getLastD_cons]
      by_cases ht : t = []
      · subst ht
        simp
      · exact List.mem_cons_of_mem _ (ih a ht)

theorem F.eq_fin_toQ {x : F} (h : x.isFin = true) : x = .fin x.toQ := by
  cases x with
  | nan => simp [F.isFin] at h
  | inf p => simp [F.isFin] at h
  | fin a => rfl

/-! ## Claim C3 -/

/-- C3: for a symbol with at least one non-missing price and all-finite
non-missing returns, the reported volatility is `std * sqrt(252)` when the
requested interval is the default (`None`) or an explicit daily token
(`1day`/`1D`/`1d`) and the population standard deviation `std` is
non-zero; for any other interval, or when `std` is zero, it is the
unannualized `std`. -/
theorem C3_volatility_annualization (sq : ℚ → ℚ) (interval : Option String)
    (pcells rcells : List F)
    (hp : dropna pcells ≠ [])
    (hr : ∀ x ∈ dropna rcells, x.isFin = true) :
    (isDaily interval = true ∧ stdQ sq rcells ≠ 0 →
      (colMetrics sq interval pcells rcells).volatility =
        some (.fin (stdQ sq rcells * sq 252))) ∧
    (¬ (isDaily interval = true ∧ stdQ sq rcells ≠ 0) →
      (colMetrics sq interval pcells rcells).volatility =
        some (.fin (stdQ sq rcells))) := by
  rw [colMetrics_fin_eval sq interval pcells rcells hp hr]
  constructor
  · intro h
    simp only [if_pos (And.intro h.2 h.1)]
  · intro h
    have hc : ¬(stdQ sq rcells ≠ 0 ∧ isDaily interval = true) :=
      fun hc => h ⟨hc.2, hc.1⟩
    simp only [if_neg hc]

/-- Witness for C3: two prices and two distinct daily returns, default
interval — the volatility is annualized by `sq 252`. -/
theorem C3_volatility_annualization_witness :
    (dropna [F.fin 1, F.fin 2] ≠ []) ∧
    (∀ x ∈ dropna [F.fin 1, F.fin 3], x.isFin = true) ∧
    ((isDaily none = true ∧ stdQ ratSqrt [F.fin 1, F.fin 3] ≠ 0 →
      (colMetrics ratSqrt none [F.fin 1, F.fin 2] [F.fin 1, F.fin 3]).volatility =
        some (.fin (stdQ ratSqrt [F.fin 1, F.fin 3] * ratSqrt 252))) ∧
    (¬ (isDaily none = true ∧ stdQ ratSqrt [F.fin 1, F.fin 3] ≠ 0) →
      (colMetrics ratSqrt none [F.fin 1, F.fin 2] [F.fin 1, F.fin 3]).volatility =
        some (.fin (stdQ ratSqrt [F.fin 1, F.fin 3])))) :=
  ⟨by decide, by decide,
    C3_volatility_annualization ratSqrt none [F.fin 1, F.fin 2] [F.fin 1, F.fin 3]
      (by decide) (by decide)⟩

/-! ## Claim C5 -/

/-- C5: for a symbol with at least one non-missing price (all prices and
non-missing returns finite), `cumulative_return` is null exactly when the
first non-missing price is `0` (otherwise `latest/first - 1`), and
`sharpe` is null exactly when the population variance (equivalently the
population standard deviation) of the non-missing returns is `0`
(otherwise `mean/std`); both edge cases produce `null` values, not
errors. -/
theorem C5_null_cumret_sharpe (sq : ℚ → ℚ) (hsq : SqrtFn sq)
    (interval : Option String) (pcells rcells : List F)
    (hp : dropna pcells ≠ [])
    (hpf : ∀ x ∈ dropna pcells, x.isFin = true)
    (hr : ∀ x ∈ dropna rcells, x.isFin = true) :
    ((colMetrics sq interval pcells rcells).cumulative_return = none ↔
      ((dropna pcells).headD .nan).toQ = 0) ∧
    (((dropna pcells).headD .nan).toQ ≠ 0 →
      (colMetrics sq interval pcells rcells).cumulative_return =
        some (.fin (((dropna pcells).getLastD .nan).toQ /
          ((dropna pcells).headD .nan).toQ - 1))) ∧
    ((colMetrics sq interval pcells rcells).sharpe = none ↔
      pvarQ ((dropna rcells).map F.toQ) = 0) ∧
    (pvarQ ((dropna rcells).map F.toQ) ≠ 0 →
      (colMetrics sq interval pcells rcells).sharpe =
        some (.fin (meanRQ rcells / stdQ sq rcells))) := by
  obtain ⟨f0, hf0⟩ : ∃ q, (dropna pcells).headD .nan = .fin q :=
    ⟨_, F.eq_fin_toQ (hpf _ (headD_mem hp))⟩
  obtain ⟨l0, hl0⟩ : ∃ q, (dropna pcells).getLastD .nan = .fin q :=
    ⟨_, F.eq_fin_toQ (hpf _ (getLastD_mem _ hp))⟩
  have hstd0 : stdQ sq rcells = 0 ↔ pvarQ ((dropna rcells).map F.toQ) = 0 := by
    unfold stdQ
    by_cases hre : dropna rcells = []
    · simp [hre, pvarQ, sqDevSum, meanQ]
    · rw [if_neg hre]
      exact hsq.1 _ (pvarQ_nonneg _)
  rw [colMetrics_fin_eval sq interval pcells rcells hp hr, hf0, hl0]
  simp only [F.toQ]
  refine ⟨?_, ?_, ?_, ?_⟩
  · by_cases h0 : f0 = 0
    · subst h0
      simp
    · simp [h0]
  · intro h0
    rw [if_pos (by simp [h0]), F.div_fin _ _ h0, F.sub_fin]
  · by_cases hv : pvarQ ((dropna rcells).map F.toQ) = 0
    · rw [if_neg (by simpa [hstd0] using hv)]
      simp [hv]
    · rw [if_pos (by simpa [hstd0] using hv)]
      simp [hv]
  · intro hv
    rw [if_pos (by simpa [hstd0] using hv)]

/-- Witness for C5: first price `2`, latest `3`, returns `[1, 3]`. -/
theorem C5_null_cumret_sharpe_witness :
    SqrtFn ratSqrt ∧
    (dropna [F.fin 2, F.fin 3] ≠ []) ∧
    (((colMetrics ratSqrt none [F.fin 2, F.fin 3] [F.fin 1, F.fin 3]).cumulative_return = none ↔
      ((dropna [F.fin 2, F.fin 3]).headD .nan).toQ = 0) ∧
    (((dropna [F.fin 2, F.fin 3]).headD .nan).toQ ≠ 0 →
      (colMetrics ratSqrt none [F.fin 2, F.fin 3] [F.fin 1, F.fin 3]).cumulative_return =
        some (.fin (((dropna [F.fin 2, F.fin 3]).getLastD .nan).toQ /
          ((dropna [F.fin 2, F.fin 3]).headD .nan).toQ - 1))) ∧
    ((colMetrics ratSqrt none [F.fin 2, F.fin 3] [F.fin 1, F.fin 3]).sharpe = none ↔
      pvarQ ((dropna [F.fin 1, F.fin 3]).map F.toQ) = 0) ∧
    (pvarQ ((dropna [F.fin 1, F.fin 3]).map F.toQ) ≠ 0 →
      (colMetrics ratSqrt none [F.fin 2, F.fin 3] [F.fin 1, F.fin 3]).sharpe =
        some (.fin (meanRQ [F.fin 1, F.fin 3] /
          stdQ ratSqrt [F.fin 1, F.fin 3])))) :=
  ⟨ratSqrt_spec, by decide,
    C5_null_cumret_sharpe ratSqrt ratSqrt_spec none [F.fin 2, F.fin 3]
      [F.fin 1, F.fin 3] (by decide) (by decide) (by decide)⟩

/-! ## Claim C7 -/

theorem map_upperStr_fixed (l : List String)
    (h : ∀ k ∈ l, ∃ s, k = upperStr s) : l.map upperStr = l := by
  have h1 : l.map upperStr = l.map id := by
    apply List.map_congr_left
    intro k hk
    rcases h k hk with ⟨s, rfl⟩
    exact upperStr_idem s
  rw [h1, List.map_id]

/-- C7: for every non-empty symbol list whose fetches all succeed,
`compare_symbols` returns a result whose metrics keys coincide (as a list,
hence as a set) with the price-panel columns; those columns are
duplicate-free and are exactly the upper-cased input symbols, and the
returns panel has the same columns. -/
theorem C7_metric_keys (fetch : String → TSPayload) (sq : ℚ → ℚ)
    (symbols : List String) (interval : Option String)
    (hne : symbols ≠ [])
    (hok : ∀ s ∈ symbols, (fetch s).isError = false) :
    ∃ sm res, fetchSeries fetch symbols [] = .ok sm ∧
      compareSymbols fetch sq symbols interval = .ok res ∧
      res.metrics.map Prod.fst = (buildPrices sm).cols ∧
      (pctChange (buildPrices sm)).cols = (buildPrices sm).cols ∧
      (buildPrices sm).cols.Nodup ∧
      (∀ k, k ∈ (buildPrices sm).cols ↔ ∃ s ∈ symbols, k = upperStr s) := by
  obtain ⟨sm, hfs, hmem, hnd, _⟩ := fetchSeries_ok fetch symbols [] hok
  have hsm : sm ≠ [] := fetchSeries_ok_ne_nil fetch symbols sm hfs hne
  have hkeys : ∀ k ∈ sm.map Prod.fst, ∃ s, k = upperStr s := by
    intro k hk
    rcases (hmem k).mp hk with h | ⟨s, _, rfl⟩
    · simp at h
    · exact ⟨s, rfl⟩
  have hcols : (buildPrices sm).cols = sm.map Prod.fst := by
    unfold buildPrices
    exact map_upperStr_fixed _ hkeys
  have hcs : compareSymbols fetch sq symbols interval = .ok
      ⟨(buildPrices sm).cols.enum.map fun p =>
        (p.2, colMetrics sq interval (colCells (buildPrices sm) p.1)
          (colCells (pctChange (buildPrices sm)) p.1)),
       corrMatrix sq (pctChange (buildPrices sm))⟩ := by
    simp [compareSymbols, hfs, hsm]
  refine ⟨sm, _, hfs, hcs, ?_, rfl, ?_, ?_⟩
  · show ((buildPrices sm).cols.enum.map fun p =>
      (p.2, colMetrics sq interval (colCells (buildPrices sm) p.1)
        (colCells (pctChange (buildPrices sm)) p.1))).map Prod.fst =
      (buildPrices sm).cols
    rw [List.map_map]
    exact List.enumFrom_map_snd 0 (buildPrices sm).cols
  · rw [hcols]
    exact hnd List.nodup_nil
  · intro k
    rw [hcols, hmem k]
    simp

/-- Witness for C7 with a duplicate-after-uppercasing request. -/
theorem C7_metric_keys_witness :
    ((["a", "A"] : List String) ≠ []) ∧
    (∀ s ∈ (["a", "A"] : List String),
      ((fun _ : String => (⟨none, none, [⟨0, some 5⟩]⟩ : TSPayload)) s).isError = false) ∧
    (∃ sm res,
      fetchSeries (fun _ => ⟨none, none, [⟨0, some 5⟩]⟩) ["a", "A"] [] = .ok sm ∧
      compareSymbols (fun _ => ⟨none, none, [⟨0, some 5⟩]⟩) (fun q => q)
        ["a", "A"] none = .ok res ∧
      res.metrics.map Prod.fst = (buildPrices sm).cols ∧
      (pctChange (buildPrices sm)).cols = (buildPrices sm).cols ∧
      (buildPrices sm).cols.Nodup ∧
      (∀ k, k ∈ (buildPrices sm).cols ↔ ∃ s ∈ (["a", "A"] : List String),
        k = upperStr s)) :=
  ⟨by decide, by decide,
    C7_metric_keys (fun _ => ⟨none, none, [⟨0, some 5⟩]⟩) (fun q => q)
      ["a", "A"] none (by decide) (by decide)⟩

/-! ## Claim C9: no NaN or infinity in metrics -/

/-- Series produced by the fetch loop are normalizer outputs. -/
theorem fetchSeries_ok_values (fetch : String → TSPayload) :
    ∀ (syms : List String) (acc sm : List (String × PriceSeries)),
      fetchSeries fetch syms acc = .ok sm →
      ∀ p ∈ sm, p ∈ acc ∨ ∃ s, p.2 = ts_to_series (fetch s) := by
  intro syms
  induction syms with
  | nil =>
      intro acc sm h p hp
      simp only [fetchSeries] at h
      injection h with h
      subst h
      exact Or.inl hp
  | cons s rest ih =>
      intro acc sm h p hp
      by_cases he : (fetch s).isError
      · simp [fetchSeries, he] at h
      · simp only [fetchSeries, he, Bool.false_eq_true, if_false] at h
        rcases ih _ sm h p hp with h1 | h1
        · rcases mem_dictInsert h1 with h2 | h2
          · right
            exact ⟨s, by rw [h2]⟩
          · exact Or.inl h2
        · exact Or.inr h1

/-- Normalizer outputs never contain infinities: every value is the parse
of a `close` field, i.e. `NaN` or finite. -/
theorem ts_to_series_no_inf (ts : TSPayload) :
    ∀ p ∈ ts_to_series ts, (p.2.isNan || p.2.isFin) = true := by
  intro p hp
  have hperm := (C8_normalizer ts).2.1
  have hp' := hperm.mem_iff.mp hp
  rcases List.mem_map.mp hp' with ⟨r, _, rfl⟩
  cases r.close with
  | none => rfl
  | some q => rfl

/-- Every cell of the price panel is `NaN` or finite when every series
value is. -/
theorem buildPrices_no_inf (sm : List (String × PriceSeries))
    (hsm : ∀ p ∈ sm, ∀ c ∈ p.2, (c.2.isNan || c.2.isFin) = true) :
    ∀ r ∈ (buildPrices sm).rows, ∀ c ∈ r.2, (c.isNan || c.isFin) = true := by
  intro r hr c hc
  unfold buildPrices at hr
  rcases List.mem_filter.mp hr with ⟨hr', _⟩
  rcases List.mem_map.mp hr' with ⟨t, _, rfl⟩
  rcases List.mem_map.mp hc with ⟨p, hp, rfl⟩
  unfold seriesAt
  cases hfind : p.2.find? (fun q => q.1 = t) with
  | none => rfl
  | some q =>
      have hqmem : q ∈ p.2 := List.mem_of_find?_eq_some hfind
      exact hsm p hp q hqmem

/-- Column cells inherit the `NaN`-or-finite property (the `getD` default
is `NaN`). -/
theorem colCells_no_inf (P : Panel)
    (h : ∀ r ∈ P.rows, ∀ c ∈ r.2, (c.isNan || c.isFin) = true) (j : ℕ) :
    ∀ x ∈ colCells P j, (x.isNan || x.isFin) = true := by
  intro x hx
  unfold colCells at hx
  rcases List.mem_map.mp hx with ⟨r, hr, rfl⟩
  by_cases hj : j < r.2.length
  · rw [List.getD_eq_getElem r.2 .nan hj]
    exact h r hr _ (List.getElem_mem hj)
  · rw [List.getD_eq_default r.2 .nan (le_of_not_lt hj)]
    rfl

/-- Non-missing cells of a `NaN`-or-finite column are finite. -/
theorem dropna_fin_of_no_inf (cells : List F)
    (h : ∀ x ∈ cells, (x.isNan || x.isFin) = true) :
    ∀ x ∈ dropna cells, x.isFin = true := by
  intro x hx
  rcases List.mem_filter.mp hx with ⟨hmem, hnot⟩
  have h1 := h x hmem
  cases x with
  | nan => simp [F.isNan] at hnot
  | inf p => simp [F.isNan, F.isFin] at h1
  | fin q => rfl

theorem insertF_perm (x : F) (l : List F) :
    List.Perm (insertF x l) (x :: l) := by
  induction l with
  | nil => exact List.Perm.refl _
  | cons y ys ih =>
      by_cases h : F.leB x y
      · simp [insertF, h]
      · simp only [insertF, if_neg h]
        exact (List.Perm.cons y ih).trans (List.Perm.swap _ _ _)

theorem sortF_perm (l : List F) : List.Perm (sortF l) l := by
  induction l with
  | nil => exact List.Perm.refl _
  | cons x xs ih =>
      exact (insertF_perm x (sortF xs)).trans (List.Perm.cons x ih)

/-- Linear-interpolation percentile of a non-empty all-finite sample is
finite. -/
theorem percentile5_def (r : List F) :
    percentile5 r =
      F.add ((sortF r).getD (⌊(5 : ℚ) / 100 * (((sortF r).length : ℚ) - 1)⌋).toNat .nan)
        (F.mul
          (F.sub
            ((sortF r).getD ((⌊(5 : ℚ) / 100 * (((sortF r).length : ℚ) - 1)⌋).toNat + 1)
              ((sortF r).getD (⌊(5 : ℚ) / 100 * (((sortF r).length : ℚ) - 1)⌋).toNat .nan))
            ((sortF r).getD (⌊(5 : ℚ) / 100 * (((sortF r).length : ℚ) - 1)⌋).toNat .nan))
          (.fin ((5 : ℚ) / 100 * (((sortF r).length : ℚ) - 1) -
            (⌊(5 : ℚ) / 100 * (((sortF r).length : ℚ) - 1)⌋ : ℚ)))) := rfl

/-- Linear-interpolation percentile of a non-empty all-finite sample is
finite. -/
theorem percentile5_fin (r : List F) (h : ∀ x ∈ r, x.isFin = true)
    (hne : r ≠ []) : ∃ q : ℚ, percentile5 r = .fin q := by
  have hsfin : ∀ x ∈ sortF r, x.isFin = true := fun x hx =>
    h x ((sortF_perm r).mem_iff.mp hx)
  have hslen : (sortF r).length = r.length := (sortF_perm r).length_eq
  have hn1 : 1 ≤ r.length := by
    cases r with
    | nil => exact absurd rfl hne
    | cons a t => simp
  rw [percentile5_def]
  set n := (sortF r).length with hn
  have hnn : 1 ≤ n := by omega
  set pos : ℚ := (5 : ℚ) / 100 * ((n : ℚ) - 1) with hpos
  have hpos0 : 0 ≤ pos := by
    apply mul_nonneg (by norm_num)
    have h1 : (1 : ℚ) ≤ (n : ℚ) := by exact_mod_cast hnn
    linarith
  have hposle : pos ≤ (n : ℚ) - 1 := by
    have h1 : (0 : ℚ) ≤ (n : ℚ) - 1 := by
      have h2 : (1 : ℚ) ≤ (n : ℚ) := by exact_mod_cast hnn
      linarith
    nlinarith
  have hilt : (⌊pos⌋).toNat < n := by
    have h2 : (⌊pos⌋ : ℚ) ≤ (n : ℚ) - 1 := le_trans (Int.floor_le pos) hposle
    have h3 : ⌊pos⌋ ≤ (n : ℤ) - 1 := by exact_mod_cast h2
    omega
  obtain ⟨a, ha⟩ : ∃ a : ℚ, (sortF r).getD (⌊pos⌋).toNat .nan = .fin a := by
    rw [List.getD_eq_getElem (sortF r) .nan hilt]
    exact ⟨_, F.eq_fin_toQ (hsfin _ (List.getElem_mem hilt))⟩
  obtain ⟨b, hb⟩ : ∃ b : ℚ, (sortF r).getD ((⌊pos⌋).toNat + 1)
      ((sortF r).getD (⌊pos⌋).toNat .nan) = .fin b := by
    by_cases hj : (⌊pos⌋).toNat + 1 < n
    · rw [List.getD_eq_getElem (sortF r) _ hj]
      exact ⟨_, F.eq_fin_toQ (hsfin _ (List.getElem_mem hj))⟩
    · rw [List.getD_eq_default (sortF r) _ (by omega)]
      exact ⟨a, ha⟩
  rw [ha] at hb
  rw [ha, hb, F.sub_fin, F.mul_fin, F.add_fin]
  exact ⟨_, rfl⟩

/-- Counterexample to C9 as stated: a symbol whose prices are `[0, 1]`.
The zero price makes `pct_change` produce `+∞` (which `dropna` keeps), the
standard deviation of `[+∞]` is `NaN`, and the reported volatility,
sharpe and var_95 are `NaN` — neither finite floats nor null. -/
theorem C9_counterexample :
    compareSymbols (fun _ => ⟨none, none, [⟨0, some 0⟩, ⟨1, some 1⟩]⟩) ratSqrt
      ["A"] none = .ok ⟨[("A",
        ⟨some (F.fin 1), none, some F.nan, some F.nan, some F.nan⟩)],
        [("A", [("A", 0)])]⟩ ∧
    (∀ q : ℚ, (some F.nan : Option F) ≠ some (F.fin q)) ∧
    ((some F.nan : Option F) ≠ none) := by
  refine ⟨by with_unfolding_all decide, fun q => by simp, by simp⟩

/-- C9 (amended): for every successful `compare_symbols` call whose
returns panels contain no infinite non-missing value (in particular, no
zero price is followed by a valid price in the next surviving panel row),
every metric field of every symbol is either null or a finite value —
no `NaN` and no infinity appears.  Without that proviso the claim fails,
see the counterexample (prices `[0, 1]`). -/
theorem C9_no_nan (fetch : String → TSPayload) (sq : ℚ → ℚ)
    (symbols : List String) (interval : Option String)
    (sm : List (String × PriceSeries))
    (hfs : fetchSeries fetch symbols [] = .ok sm)
    (hfin : ∀ j : ℕ, ∀ x ∈ dropna (colCells (pctChange (buildPrices sm)) j),
      x.isFin = true) :
    ∃ res, compareSymbols fetch sq symbols interval = .ok res ∧
      ∀ p ∈ res.metrics,
        ∀ f ∈ [p.2.latest, p.2.cumulative_return, p.2.volatility,
          p.2.sharpe, p.2.var_95],
          f = none ∨ ∃ q : ℚ, f = some (.fin q) := by
  by_cases hsm : sm = []
  · refine ⟨⟨[], []⟩, by simp [compareSymbols, hfs, hsm], ?_⟩
    intro p hp
    simp at hp
  · have hcs : compareSymbols fetch sq symbols interval = .ok
        ⟨(buildPrices sm).cols.enum.map fun p =>
          (p.2, colMetrics sq interval (colCells (buildPrices sm) p.1)
            (colCells (pctChange (buildPrices sm)) p.1)),
         corrMatrix sq (pctChange (buildPrices sm))⟩ := by
      simp [compareSymbols, hfs, hsm]
    have hvals : ∀ p' ∈ sm, ∀ c ∈ p'.2, (c.2.isNan || c.2.isFin) = true := by
      intro p' hp' c hc
      rcases fetchSeries_ok_values fetch symbols [] sm hfs p' hp' with h1 | ⟨s, hseq⟩
      · simp at h1
      · rw [hseq] at hc
        exact ts_to_series_no_inf _ c hc
    refine ⟨_, hcs, ?_⟩
    intro p hp
    rcases List.mem_map.mp hp with ⟨⟨i, col⟩, _, rfl⟩
    have hpfin : ∀ x ∈ dropna (colCells (buildPrices sm) i), x.isFin = true :=
      dropna_fin_of_no_inf _ (colCells_no_inf _ (buildPrices_no_inf sm hvals) i)
    have hrfin := hfin i
    by_cases hp0 : dropna (colCells (buildPrices sm) i) = []
    · have hall : colMetrics sq interval (colCells (buildPrices sm) i)
          (colCells (pctChange (buildPrices sm)) i) =
          ⟨none, none, none, none, none⟩ := by
        simp [colMetrics, hp0]
      intro f hf
      rw [hall] at hf
      simp only [List.mem_cons, List.not_mem_nil, or_false] at hf
      left
      rcases hf with rfl | rfl | rfl | rfl | rfl <;> rfl
    · obtain ⟨h0, hh0⟩ : ∃ q, (dropna (colCells (buildPrices sm) i)).headD .nan =
          .fin q := ⟨_, F.eq_fin_toQ (hpfin _ (headD_mem hp0))⟩
      obtain ⟨l0, hl0⟩ : ∃ q, (dropna (colCells (buildPrices sm) i)).getLastD .nan =
          .fin q := ⟨_, F.eq_fin_toQ (hpfin _ (getLastD_mem _ hp0))⟩
      rw [colMetrics_fin_eval sq interval _ _ hp0 hrfin]
      intro f hf
      simp only [hh0, hl0, List.mem_cons, List.not_mem_nil, or_false] at hf
      rcases hf with rfl | rfl | rfl | rfl | rfl
      · exact Or.inr ⟨l0, rfl⟩
      · by_cases hz : h0 = 0
        · subst hz
          left
          simp
        · right
          refine ⟨l0 / h0 - 1, ?_⟩
          rw [if_pos (by simp [hz]), F.div_fin _ _ hz, F.sub_fin]
      · by_cases hcond : stdQ sq (colCells (pctChange (buildPrices sm)) i) ≠ 0 ∧
            isDaily interval = true
        · exact Or.inr ⟨_, by rw [if_pos hcond]⟩
        · exact Or.inr ⟨_, by rw [if_neg hcond]⟩
      · by_cases hs : stdQ sq (colCells (pctChange (buildPrices sm)) i) ≠ 0
        · exact Or.inr ⟨_, by rw [if_pos hs]⟩
        · left
          rw [if_neg hs]
      · by_cases hre : dropna (colCells (pctChange (buildPrices sm)) i) ≠ []
        · obtain ⟨q, hq⟩ := percentile5_fin _ hrfin hre
          exact Or.inr ⟨q, by rw [if_pos hre, hq]⟩
        · left
          rw [if_neg hre]

/-- Witness for C9 (amended): a single one-point series (empty returns
panel, vacuously infinity-free). -/
theorem C9_no_nan_witness :
    (fetchSeries (fun _ => ⟨none, none, [⟨0, some 1⟩]⟩) ["A"] [] =
      .ok [("A", [((0 : Int), F.fin 1)])]) ∧
    (∃ res, compareSymbols (fun _ => ⟨none, none, [⟨0, some 1⟩]⟩) ratSqrt
        ["A"] none = .ok res ∧
      ∀ p ∈ res.metrics,
        ∀ f ∈ [p.2.latest, p.2.cumulative_return, p.2.volatility,
          p.2.sharpe, p.2.var_95],
          f = none ∨ ∃ q : ℚ, f = some (.fin q)) := by
  have hrows : pctChange (buildPrices [("A", [((0 : Int), F.fin 1)])]) =
      ⟨["A"], []⟩ := by
    with_unfolding_all decide
  refine ⟨by with_unfolding_all decide, ?_⟩
  refine C9_no_nan (fun _ => ⟨none, none, [⟨0, some 1⟩]⟩) ratSqrt ["A"] none
    [("A", [((0 : Int), F.fin 1)])] (by with_unfolding_all decide) ?_
  intro j x hx
  rw [hrows] at hx
  simp [colCells, dropna] at hx

end McpStocks